import Mathlib

/-!
# ledmsgchar: a shallow embedding of the LED message board driver

The C module `ledmsgchar.c` keeps all of its state in file-level variables.
The embedding collects the variables that the frame hand-off and the row scan
touch into one record, `State`, and turns every C function into a function on
that record.  Bytes (`u8`, `char`) are natural numbers; where the C code
narrows a value to `u8` the embedding reduces it modulo `256`.

Every call `gpio_set_value(pin, value)` is recorded, in program order, as the
pair `(pin, value)`; the record field `gpio` is the chronological list of all
such calls.
-/

namespace Ledmsgchar

/-! ## Constants of the module -/

/-- Row select bus A0 (LSB), GPIO1_30. -/
def gpioA0 : Nat := 62
/-- Row select bus A1, GPIO1_4. -/
def gpioA1 : Nat := 36
/-- Row select bus A2 (MSB), GPIO1_0. -/
def gpioA2 : Nat := 32
/-- Clock signal, GPIO1_16. -/
def gpioCLK : Nat := 48
/-- Data signal, GPIO1_17. -/
def gpioD0 : Nat := 49
/-- Data latch signal, GPIO3_19. -/
def gpioSTB : Nat := 115
/-- Pin that blanks the sign, active high. -/
def gpioBLK : Nat := 117

/-- Number of rows of the sign (`#define NUM_ROWS 8`). -/
def NUM_ROWS : Nat := 8
/-- Number of bytes in one row (`#define NUM_ROW_BYTES 18`). -/
def NUM_ROW_BYTES : Nat := 18

/-- The errno value `EINVAL` of the kernel headers. -/
def EINVAL : Int := 22

/-! ## Hex decoding: `ascii2byte` -/

/-- The local table `hexLookup[]` of `ascii2byte`, 32 entries. -/
def hexLookup : List Nat :=
  [0x00, 0x01, 0x02, 0x03, 0x04, 0x05, 0x06, 0x07,
   0x08, 0x09, 0x00, 0x00, 0x00, 0x00, 0x00, 0x00,
   0x00, 0x0a, 0x0b, 0x0c, 0x0d, 0x0e, 0x0f, 0x00,
   0x00, 0x00, 0x00, 0x00, 0x00, 0x00, 0x00, 0x00]

/-- The table index computed for one character:
`index = (u8) ((c & 0x1F) ^ 0x10)`.  A character is given by its byte value;
where `char` is signed the promoted value has the same low five bits. -/
def hexIndex (c : Nat) : Nat := ((c &&& 0x1F) ^^^ 0x10) % 256

/-- One table read `hexLookup[index]` for the character `c`. -/
def hexNibble (c : Nat) : Nat := hexLookup.getD (hexIndex c) 0

/-- The function `ascii2byte` applied to the two characters `c1 = val[0]` and
`c2 = val[1]`:
`result = hexLookup[index] << 4;  result |= hexLookup[index];`
with `result` of type `u8`. -/
def ascii2byte (c1 c2 : Nat) : Nat :=
  let result := (hexNibble c1 <<< 4) % 256
  (result ||| hexNibble c2) % 256

/-- The character at position `k` of a buffer (`*(buffer + k)`). -/
def charAt (buffer : List Nat) (k : Nat) : Nat := buffer.getD k 0

/-- The call `ascii2byte(pchar)` for `pchar = buffer + k`. -/
def ascii2byteAt (buffer : List Nat) (k : Nat) : Nat :=
  ascii2byte (charAt buffer k) (charAt buffer (k + 1))

/-! ## Specification-side vocabulary for hex text -/

/-- A character code is one of the hex digits `0-9`, `A-F`, `a-f`. -/
def isHexDigit (c : Nat) : Prop :=
  (48 ≤ c ∧ c ≤ 57) ∨ (65 ≤ c ∧ c ≤ 70) ∨ (97 ≤ c ∧ c ≤ 102)

instance (c : Nat) : Decidable (isHexDigit c) := by
  unfold isHexDigit; infer_instance

/-- The numeric value of a hex digit character: `'0'..'9'` are 0..9,
`'A'..'F'` and `'a'..'f'` are 10..15 (other characters have value 0). -/
def hexval (c : Nat) : Nat :=
  if 48 ≤ c ∧ c ≤ 57 then c - 48
  else if 65 ≤ c ∧ c ≤ 70 then c - 55
  else if 97 ≤ c ∧ c ≤ 102 then c - 87
  else 0

/-- Upper-case counterpart of an ASCII character (`'a'..'z'` to `'A'..'Z'`). -/
def toUpperAscii (c : Nat) : Nat :=
  if 97 ≤ c ∧ c ≤ 122 then c - 32 else c

/-- Hex digit character (upper case, as printed by `%02X`) of a nibble value. -/
def hexDigitChar (n : Nat) : Nat :=
  if n < 10 then 48 + n else 55 + n

/-- Re-encoding of one byte as two hex digits, most-significant nibble first. -/
def byte2hex (b : Nat) : List Nat :=
  [hexDigitChar (b / 16), hexDigitChar (b % 16)]

/-- Re-encoding of a frame as hex text: row-major, two digits per byte. -/
def encodeFrame (f : List (List Nat)) : List Nat :=
  (f.map (fun rowData => (rowData.map byte2hex).flatten)).flatten

/-- Two texts are equal up to the case of their letters. -/
def eqIgnoreCase (a b : List Nat) : Prop :=
  a.map toUpperAscii = b.map toUpperAscii

/-- Bit `j` of the number `b` (0 or 1). -/
def bitOf (b j : Nat) : Nat := (b >>> j) % 2

/-! ## Driver state -/

/-- The initialiser `INIT_BUFFER_PATTERN` of `buf`. -/
def INIT_BUFFER_PATTERN : List (List Nat) :=
  [[0x01, 0x00, 0x00, 0x00, 0x00, 0x00, 0x00, 0x00, 0x00,
      0x00, 0x00, 0x00, 0x00, 0x00, 0x00, 0x00, 0x00, 0x00],
   [0x02, 0x00, 0x00, 0x00, 0x00, 0x00, 0x00, 0x00, 0x00,
      0x00, 0x00, 0x00, 0x00, 0x00, 0x00, 0x00, 0x00, 0x00],
   [0x04, 0x00, 0x00, 0x00, 0x00, 0x00, 0x00, 0x00, 0x00,
      0x00, 0x00, 0x00, 0x00, 0x00, 0x00, 0x00, 0x00, 0x00],
   [0x08, 0x00, 0x00, 0x00, 0x00, 0x00, 0x00, 0x00, 0x00,
      0x00, 0x00, 0x00, 0x00, 0x00, 0x00, 0x00, 0x00, 0x00],
   [0x10, 0x00, 0x00, 0x00, 0x00, 0x00, 0x00, 0x00, 0x00,
      0x00, 0x00, 0x00, 0x00, 0x00, 0x00, 0x00, 0x00, 0x00],
   [0x20, 0x00, 0x00, 0x00, 0x00, 0x00, 0x00, 0x00, 0x00,
      0x00, 0x00, 0x00, 0x00, 0x00, 0x00, 0x00, 0x00, 0x00],
   [0x40, 0x00, 0x00, 0x00, 0x00, 0x00, 0x00, 0x00, 0x00,
      0x00, 0x00, 0x00, 0x00, 0x00, 0x00, 0x00, 0x00, 0x00],
   [0x80, 0x00, 0x00, 0x00, 0x00, 0x00, 0x00, 0x00, 0x00,
      0x00, 0x00, 0x00, 0x00, 0x00, 0x00, 0x00, 0x00, 0x00]]

/-- The file-level variables of the module that the write path and the scan
loop use, and the record of the GPIO calls made so far.

* `buf` is `static u8 buf[NUM_ROWS][NUM_ROW_BYTES]`, the frame being scanned;
* `userBuf` is `static u8 userBuf[NUM_ROWS][NUM_ROW_BYTES]`, the pending frame;
* `sUserBufReady` is the ready flag;
* `row` is `static unsigned int row`, the row being scanned;
* `gpio` lists the calls `gpio_set_value(pin, value)` in program order. -/
structure State where
  buf : List (List Nat)
  userBuf : List (List Nat)
  sUserBufReady : Bool
  row : Nat
  gpio : List (Nat × Nat)
  deriving DecidableEq

/-- The variables as the C initialisers leave them when the module is loaded:
`buf = INIT_BUFFER_PATTERN`, `userBuf` zero-filled static storage,
`sUserBufReady = 0`, `row = 0`, and no GPIO call made yet. -/
def init : State :=
  { buf := INIT_BUFFER_PATTERN
    userBuf := List.replicate NUM_ROWS (List.replicate NUM_ROW_BYTES 0)
    sUserBufReady := false
    row := 0
    gpio := [] }

/-- A frame has the dimensions of the C arrays: `NUM_ROWS` rows of
`NUM_ROW_BYTES` bytes. -/
def FrameOK (f : List (List Nat)) : Prop :=
  f.length = NUM_ROWS ∧ ∀ rowData ∈ f, rowData.length = NUM_ROW_BYTES

instance (f : List (List Nat)) : Decidable (FrameOK f) := by
  unfold FrameOK; infer_instance

/-- The array read `f[row][index]`. -/
def getByte (f : List (List Nat)) (row index : Nat) : Nat :=
  (f.getD row []).getD index 0

/-- The array write `f[row][index] = v`. -/
def setByte (f : List (List Nat)) (row index v : Nat) : List (List Nat) :=
  f.set row ((f.getD row []).set index v)

/-- The level of a pin after a sequence of GPIO calls: the value of the last
call on that pin, and 0 (the level set by `gpio_direction_output(pin, 0)` in
`INIT_GPIO`) when there is none. -/
def pinLevel (pin : Nat) (ws : List (Nat × Nat)) : Nat :=
  match (ws.filter (fun w => w.1 == pin)).getLast? with
  | some w => w.2
  | none => 0

/-! ## The row serialiser: `write_row_data` -/

/-- The inner loop of `write_row_data` for one byte `b`:
`for (mask = 0x80; mask != 0; mask >>= 1) { D0 := (b & mask) ? 1 : 0; CLK := 1; CLK := 0; }`.
The second argument is the current `mask`.  The first argument bounds the
number of iterations left; since `mask >> 1 < mask` for `mask != 0`, any bound
that is at least `mask` is never exhausted (`write_byte_bits_bound`). -/
def write_byte_bits (b : Nat) : Nat → Nat → List (Nat × Nat)
  | 0, _ => []
  | bound + 1, mask =>
    if mask ≠ 0 then
      (gpioD0, if b &&& mask ≠ 0 then 1 else 0) :: (gpioCLK, 1) :: (gpioCLK, 0) ::
        write_byte_bits b bound (mask >>> 1)
    else []

/-- The function `write_row_data(rowData, numBytes)`: the GPIO calls it makes.
`while (numBytes > 0) { b = *rowData; ++rowData; <inner loop>; --numBytes; }` -/
def write_row_data : List Nat → Nat → List (Nat × Nat)
  | _, 0 => []
  | rowData, numBytes + 1 =>
    let b := rowData.headD 0
    write_byte_bits b 0x80 0x80 ++ write_row_data rowData.tail numBytes

/-! ## The scan loop: `update_row` -/

/-- The head of the loop body of `update_row`:
`if (sUserBufReady) { memcpy(buf, userBuf, sizeof buf); sUserBufReady = 0; }` -/
def take_pending (s : State) : State :=
  if s.sUserBufReady then { s with buf := s.userBuf, sUserBufReady := false } else s

/-- The row step `(row < 7) ? ++row : (row = 0);`. -/
def next_row (row : Nat) : Nat :=
  if row < 7 then row + 1 else 0

/-- The three row-select calls of `update_row`:
`(row & 1) ? gpio_set_value(gpioA0, 1) : gpio_set_value(gpioA0, 0);` and the
same with `row & 2` on `gpioA1` and `row & 4` on `gpioA2`. -/
def row_select_writes (row : Nat) : List (Nat × Nat) :=
  [(gpioA0, if row &&& 1 ≠ 0 then 1 else 0),
   (gpioA1, if row &&& 2 ≠ 0 then 1 else 0),
   (gpioA2, if row &&& 4 ≠ 0 then 1 else 0)]

/-- The GPIO calls that follow `write_row_data` in the loop body of
`update_row`: blank, row select, latch pulse, un-blank. -/
def control_writes (row : Nat) : List (Nat × Nat) :=
  (gpioBLK, 1) :: row_select_writes row ++ [(gpioSTB, 1), (gpioSTB, 0), (gpioBLK, 0)]

/-- All GPIO calls of one pass through the loop body of `update_row`, for the
frame `buf` and the already advanced `row`:
`write_row_data(buf[row], NUM_ROW_BYTES)` and then the control calls. -/
def cycle_writes (buf : List (List Nat)) (row : Nat) : List (Nat × Nat) :=
  write_row_data (buf.getD row []) NUM_ROW_BYTES ++ control_writes row

/-- One pass through the loop body of `update_row` (one scan cycle). -/
def update_row_cycle (s : State) : State :=
  let s1 := take_pending s
  let row := next_row s1.row
  { s1 with row := row, gpio := s1.gpio ++ cycle_writes s1.buf row }

/-- The function `update_row` when `kthread_should_stop()` first returns true
after `n` passes: `n` scan cycles in sequence. -/
def update_row : Nat → State → State
  | 0, s => s
  | n + 1, s => update_row n (update_row_cycle s)

/-- The rows output by `n` consecutive scan cycles from `s`, in order. -/
def rows_scanned : Nat → State → List Nat
  | 0, _ => []
  | n + 1, s => (update_row_cycle s).row :: rows_scanned n (update_row_cycle s)

/-! ## The write path: `dev_write` -/

/-- The body of the inner `for` loop of `dev_write`, on the pair
`(pchar - buffer, userBuf)`:
`userBuf[row][index] = ascii2byte(pchar); pchar += 2;` -/
def dev_write_byte (buffer : List Nat) (row : Nat) (p : Nat × List (List Nat)) (index : Nat) :
    Nat × List (List Nat) :=
  (p.1 + 2, setByte p.2 row index (ascii2byteAt buffer p.1))

/-- The inner loop `for (index = 0; index < NUM_ROW_BYTES; ++index)`. -/
def dev_write_row (buffer : List Nat) (p : Nat × List (List Nat)) (row : Nat) :
    Nat × List (List Nat) :=
  (List.range NUM_ROW_BYTES).foldl (dev_write_byte buffer row) p

/-- The two nested loops of `dev_write`, started with `pchar = buffer`. -/
def dev_write_decode (buffer : List Nat) (userBuf : List (List Nat)) :
    Nat × List (List Nat) :=
  (List.range NUM_ROWS).foldl (dev_write_row buffer) (0, userBuf)

/-- The function `dev_write(filep, buffer, len, offset)` with
`len = buffer.length`, as one execution running alone.

* `len < NUM_ROWS * NUM_ROW_BYTES * 2`: returns `-EINVAL`, state untouched.
* otherwise the loop `while (sUserBufReady) msleep(2);` runs first.  Nothing in
  `dev_write` clears the flag, so when the flag is set on entry the call
  polls for as long as no scan cycle intervenes: the result is `none`.
* with the flag clear the frame is decoded into `userBuf`, the flag is set and
  `len` is returned (the kernel caps `len` at `MAX_RW_COUNT`, so the conversion
  from `size_t` to `ssize_t` keeps its value). -/
def dev_write (s : State) (buffer : List Nat) : Option (Int × State) :=
  let len := buffer.length
  if len < NUM_ROWS * NUM_ROW_BYTES * 2 then
    some (-EINVAL, s)
  else if s.sUserBufReady then
    none
  else
    let r := dev_write_decode buffer s.userBuf
    some ((len : Int), { s with userBuf := r.2, sUserBufReady := true })

/-- The states the driver can be in: the initial state, and any state reached
from a reachable one by a scan cycle or by a call of `dev_write` that returns. -/
inductive Reachable : State → Prop
  | init : Reachable init
  | cycle {s : State} : Reachable s → Reachable (update_row_cycle s)
  | write {s s1 : State} {buffer : List Nat} {ret : Int} :
      Reachable s → dev_write s buffer = some (ret, s1) → Reachable s1

/-! ## Test data -/

/-- The text built by `fill_row(row, str)` of `testledmsgchar.c`: `"FF"` for
every byte of the given row and `"00"` for every other byte. -/
def fill_row (row : Nat) : List Nat :=
  ((List.range NUM_ROWS).map (fun r =>
    ((List.range NUM_ROW_BYTES).map (fun _ =>
      if r = row then [70, 70] else [48, 48])).flatten)).flatten

/-- The payload of the end-to-end scenario: row 3 is `"FF"` followed by
seventeen `"00"`, every other row is eighteen `"00"`. -/
def scenario_payload : List Nat :=
  ((List.range NUM_ROWS).map (fun r =>
    ((List.range NUM_ROW_BYTES).map (fun i =>
      if r = 3 ∧ i = 0 then [70, 70] else [48, 48])).flatten)).flatten

/-- The frame that the scenario payload denotes: byte 0 of row 3 is `0xFF`,
every other byte is 0. -/
def scenario_frame : List (List Nat) :=
  (List.range NUM_ROWS).map (fun r =>
    (List.range NUM_ROW_BYTES).map (fun i => if r = 3 ∧ i = 0 then 0xFF else 0))

/-- The state after the scenario payload has been written into the initial
state. -/
def scenario_written : State :=
  { init with userBuf := scenario_frame, sUserBufReady := true }

/-- The byte formed by the first eight values put on the data pin in a
sequence of GPIO calls, the first value being the most significant bit. -/
def first_byte_shifted (ws : List (Nat × Nat)) : Nat :=
  (((ws.filter (fun w => w.1 == gpioD0)).take 8).map (fun w => w.2)).foldl
    (fun acc bit => 2 * acc + bit) 0

/-- The GPIO calls of a scan cycle made before the latch is pulsed: all calls
of the cycle up to, and not including, the first call on the latch pin. -/
def before_latch (ws : List (Nat × Nat)) : List (Nat × Nat) :=
  ws.takeWhile (fun w => !(w.1 == gpioSTB))

/-- Number of bits set in the bytes of one row. -/
def row_bits_set (rowData : List Nat) : Nat :=
  (rowData.map (fun b => ((List.range 8).map (bitOf b)).sum)).sum

/-! ## Module load and unload: `ledmsgchar_init`, `ledmsgchar_exit` -/

/-- The errno value `ENODEV` of the kernel headers. -/
def ENODEV : Int := 19

/-- The calls into the kernel that `ledmsgchar_init` and `ledmsgchar_exit`
make; a run of either function is recorded as the list of its calls in
program order. -/
inductive KCall
  | register_chrdev
  | unregister_chrdev
  | class_create
  | class_unregister
  | class_destroy
  | device_create
  | device_destroy
  | gpio_request (gpio : Nat)
  | gpio_direction_output (gpio value : Nat)
  | gpio_export (gpio : Nat)
  | gpio_unexport (gpio : Nat)
  | gpio_free (gpio : Nat)
  | kthread_run
  | kthread_stop
  deriving DecidableEq

/-- What the kernel answers to the calls of `ledmsgchar_init` whose result the
function tests.

* `register_chrdev` is the value returned by `register_chrdev` (negative on
  failure);
* `class_create`, `device_create` and `kthread_run` are `none` when the call
  succeeds and `some e` when `IS_ERR` holds of the result, `e` being `PTR_ERR`;
* `gpio_is_valid` is the predicate of the same name. -/
structure Kernel where
  register_chrdev : Int
  class_create : Option Int
  device_create : Option Int
  gpio_is_valid : Nat → Bool
  kthread_run : Option Int

/-- The seven lines in the order in which `ledmsgchar_init` sets them up and
`ledmsgchar_exit` closes them. -/
def gpio_lines : List Nat :=
  [gpioA0, gpioA1, gpioA2, gpioCLK, gpioD0, gpioSTB, gpioBLK]

/-- The macro `INIT_GPIO(A)` applied to the given lines one after the other.
For a valid line it calls `gpio_request(A, "sysfs")`,
`gpio_direction_output(A, 0)` and `gpio_export(A, false)`; at the first
invalid line it sets `result = -ENODEV` and jumps to `error`.  The result is
the calls made and whether the end was reached without the jump. -/
def INIT_GPIO (k : Kernel) : List Nat → List KCall × Bool
  | [] => ([], true)
  | A :: rest =>
    if k.gpio_is_valid A then
      let r := INIT_GPIO k rest
      (KCall.gpio_request A :: KCall.gpio_direction_output A 0 :: KCall.gpio_export A :: r.1, r.2)
    else ([], false)

/-- The function `ledmsgchar_init`: its return value and the kernel calls it
makes.  The label `error:` calls `class_destroy` and `unregister_chrdev` and
returns `result`. -/
def ledmsgchar_init (k : Kernel) : Int × List KCall :=
  if k.register_chrdev < 0 then
    (k.register_chrdev, [KCall.register_chrdev])
  else
    match k.class_create with
    | some e => (e, [KCall.register_chrdev, KCall.class_create, KCall.unregister_chrdev])
    | none =>
      match k.device_create with
      | some e =>
        (e, [KCall.register_chrdev, KCall.class_create, KCall.device_create,
          KCall.class_destroy, KCall.unregister_chrdev])
      | none =>
        let g := INIT_GPIO k gpio_lines
        let done := [KCall.register_chrdev, KCall.class_create, KCall.device_create] ++ g.1
        if g.2 then
          match k.kthread_run with
          | some e =>
            (e, done ++ [KCall.kthread_run, KCall.class_destroy, KCall.unregister_chrdev])
          | none => (0, done ++ [KCall.kthread_run])
        else
          (-ENODEV, done ++ [KCall.class_destroy, KCall.unregister_chrdev])

/-- The macro `CLOSE_GPIO(A)`: `{ gpio_unexport((A)); gpio_free(gpioBLK); }`. -/
def CLOSE_GPIO (A : Nat) : List KCall :=
  [KCall.gpio_unexport A, KCall.gpio_free gpioBLK]

/-- The function `ledmsgchar_exit`: the kernel calls it makes. -/
def ledmsgchar_exit : List KCall :=
  [KCall.kthread_stop] ++
    CLOSE_GPIO gpioA0 ++ CLOSE_GPIO gpioA1 ++ CLOSE_GPIO gpioA2 ++ CLOSE_GPIO gpioCLK ++
    CLOSE_GPIO gpioD0 ++ CLOSE_GPIO gpioSTB ++ CLOSE_GPIO gpioBLK ++
    [KCall.device_destroy, KCall.class_unregister, KCall.class_destroy,
      KCall.unregister_chrdev]

/-- The lines held after a sequence of kernel calls, starting from the lines
`held`: `gpio_request` takes a line, `gpio_free` gives it back. -/
def lines_held : List KCall → List Nat → List Nat
  | [], held => held
  | KCall.gpio_request A :: cs, held => lines_held cs (held ++ [A])
  | KCall.gpio_free A :: cs, held => lines_held cs (held.erase A)
  | _ :: cs, held => lines_held cs held

/-- The calls `gpio_free(A)` in a sequence of kernel calls that are made while
the line `A` is not held. -/
def frees_not_held : List KCall → List Nat → List Nat
  | [], _ => []
  | KCall.gpio_request A :: cs, held => frees_not_held cs (held ++ [A])
  | KCall.gpio_free A :: cs, held =>
    if A ∈ held then frees_not_held cs (held.erase A) else A :: frees_not_held cs held
  | _ :: cs, held => frees_not_held cs held

/-- A kernel in which every call of `ledmsgchar_init` succeeds (major number
240) and every line is valid. -/
def kernel_ok : Kernel :=
  { register_chrdev := 240
    class_create := none
    device_create := none
    gpio_is_valid := fun _ => true
    kthread_run := none }

/-- The kernel `kernel_ok` with the single line `A` made invalid. -/
def kernel_invalid (A : Nat) : Kernel :=
  { kernel_ok with gpio_is_valid := fun n => n != A }

/-! ## The two executions interleaved

`dev_write` runs in the context of the writing process and `update_row` in its
own kernel thread.  To speak about their interleavings each function is cut
into steps at its accesses to the shared variables `userBuf`, `buf` and
`sUserBufReady`: one step per load or store of the flag, one step per byte
stored into `userBuf`, one step per byte copied by `memcpy`.  A schedule picks,
step by step, which execution runs next; steps are atomic and each execution
keeps its program order. -/

/-- The frame denoted by the first 288 characters of a buffer: byte `index` of
row `row` is `ascii2byte` of the two characters at `2 * (18 * row + index)`. -/
def decode_frame (buffer : List Nat) : List (List Nat) :=
  (List.range NUM_ROWS).map (fun row =>
    (List.range NUM_ROW_BYTES).map (fun index =>
      ascii2byteAt buffer (2 * (NUM_ROW_BYTES * row + index))))

/-- Where the producer stands in `dev_write`.

* `idle`: outside of `dev_write`;
* `poll buffer`: at the test of `while (sUserBufReady)`, the length test passed;
* `store buffer row index pchar`: at the statement
  `userBuf[row][index] = ascii2byte(pchar)` of the nested loops, `pchar` being
  the offset of the pointer from `buffer`;
* `set_ready buffer`: at the statement `sUserBufReady = 1`. -/
inductive WriterPc
  | idle
  | poll (buffer : List Nat)
  | store (buffer : List Nat) (row index pchar : Nat)
  | set_ready (buffer : List Nat)
  deriving DecidableEq

/-- Where the scan loop stands in the body of `update_row`.

* `top`: at the test `if (sUserBufReady)`;
* `copy k`: inside `memcpy(buf, userBuf, sizeof buf)`, `k` bytes copied;
* `clear`: at the statement `sUserBufReady = 0`;
* `output`: at the row step, before `write_row_data` and the control calls. -/
inductive ScanPc
  | top
  | copy (k : Nat)
  | clear
  | output
  deriving DecidableEq

/-- The shared variables, the position of each execution, and two histories
kept for the statement of the hand-off: `accepted` lists the buffers of the
calls of `dev_write` that have set `sUserBufReady`, oldest first; `copied`
lists the contents of `buf` at each completion of the `memcpy`, oldest first. -/
structure Config where
  shared : State
  writer : WriterPc
  scanner : ScanPc
  accepted : List (List Nat)
  copied : List (List (List Nat))
  deriving DecidableEq

/-- One scheduling decision: the producer calls `dev_write` on a buffer, the
producer runs its next step, or the scan loop runs its next step. -/
inductive Action
  | call (buffer : List Nat)
  | writer
  | scanner
  deriving DecidableEq

/-- The configuration when the module has been loaded: the variables as
initialised, the producer outside `dev_write`, the scan loop at the top of its
first cycle. -/
def config_init : Config :=
  { shared := init, writer := WriterPc.idle, scanner := ScanPc.top, accepted := [], copied := [] }

/-- The producer enters `dev_write(buffer)`: with less than 288 characters the
call returns `-EINVAL` at once; otherwise it reaches the polling loop.  A
producer that is inside a call cannot start another. -/
def writer_call (c : Config) (buffer : List Nat) : Config :=
  match c.writer with
  | WriterPc.idle =>
    if buffer.length < NUM_ROWS * NUM_ROW_BYTES * 2 then c
    else { c with writer := WriterPc.poll buffer }
  | _ => c

/-- The next step of the producer inside `dev_write`.

* `poll`: reads the flag; when set, `msleep(2)` and test again; when clear,
  the loops start with `row = 0`, `index = 0`, `pchar = buffer`;
* `store`: one pass of the inner loop body (`dev_write_byte`), then the loop
  tests `++index < NUM_ROW_BYTES` and `++row < NUM_ROWS`;
* `set_ready`: `sUserBufReady = 1` and return. -/
def writer_step (c : Config) : Config :=
  match c.writer with
  | WriterPc.idle => c
  | WriterPc.poll buffer =>
    if c.shared.sUserBufReady then c
    else { c with writer := WriterPc.store buffer 0 0 0 }
  | WriterPc.store buffer row index pchar =>
    let p := dev_write_byte buffer row (pchar, c.shared.userBuf) index
    let sh : State := { c.shared with userBuf := p.2 }
    if index + 1 < NUM_ROW_BYTES then
      { c with shared := sh, writer := WriterPc.store buffer row (index + 1) p.1 }
    else if row + 1 < NUM_ROWS then
      { c with shared := sh, writer := WriterPc.store buffer (row + 1) 0 p.1 }
    else
      { c with shared := sh, writer := WriterPc.set_ready buffer }
  | WriterPc.set_ready buffer =>
    { c with shared := { c.shared with sUserBufReady := true }
             writer := WriterPc.idle
             accepted := c.accepted ++ [buffer] }

/-- The next step of the scan loop.

* `top`: reads the flag; when set the `memcpy` starts, otherwise the loop body
  goes on to the row step;
* `copy k`: byte `k` of `userBuf` (row `k / 18`, index `k % 18`) is copied
  into `buf`; after the last of the `sizeof buf` bytes comes `clear`;
* `clear`: `sUserBufReady = 0`;
* `output`: the row step, `write_row_data` and the control calls; then the
  dwell sleep and back to `top`. -/
def scanner_step (c : Config) : Config :=
  match c.scanner with
  | ScanPc.top =>
    if c.shared.sUserBufReady then { c with scanner := ScanPc.copy 0 }
    else { c with scanner := ScanPc.output }
  | ScanPc.copy k =>
    let sh : State :=
      { c.shared with
        buf := setByte c.shared.buf (k / NUM_ROW_BYTES) (k % NUM_ROW_BYTES)
          (getByte c.shared.userBuf (k / NUM_ROW_BYTES) (k % NUM_ROW_BYTES)) }
    if k + 1 < NUM_ROWS * NUM_ROW_BYTES then
      { c with shared := sh, scanner := ScanPc.copy (k + 1) }
    else
      { c with shared := sh, scanner := ScanPc.clear, copied := c.copied ++ [sh.buf] }
  | ScanPc.clear =>
    { c with shared := { c.shared with sUserBufReady := false }, scanner := ScanPc.output }
  | ScanPc.output =>
    let row := next_row c.shared.row
    { c with
      shared := { c.shared with
                  row := row, gpio := c.shared.gpio ++ cycle_writes c.shared.buf row }
      scanner := ScanPc.top }

/-- One scheduling decision applied to a configuration. -/
def step (c : Config) : Action → Config
  | Action.call buffer => writer_call c buffer
  | Action.writer => writer_step c
  | Action.scanner => scanner_step c

/-- A schedule applied to a configuration, first decision first. -/
def run (schedule : List Action) (c : Config) : Config :=
  schedule.foldl step c

/-- What holds of the shared variables at each position of the producer:
while it stores into `userBuf` the flag is clear and the bytes before the
current position are already those of the buffer being decoded; when it is
about to set the flag, `userBuf` is the whole decoded frame. -/
def WriterInv (c : Config) : Prop :=
  match c.writer with
  | WriterPc.idle => True
  | WriterPc.poll _ => True
  | WriterPc.store buffer row index pchar =>
    c.shared.sUserBufReady = false ∧ row < 8 ∧ index < 18 ∧ pchar = 2 * (18 * row + index) ∧
    ∀ r i, r < 8 → i < 18 → (r < row ∨ (r = row ∧ i < index)) →
      getByte c.shared.userBuf r i = ascii2byteAt buffer (2 * (18 * r + i))
  | WriterPc.set_ready buffer =>
    c.shared.sUserBufReady = false ∧ c.shared.userBuf = decode_frame buffer

/-- What holds of the shared variables at each position of the scan loop:
during the `memcpy` and up to the clearing of the flag the flag is set; the
bytes already copied agree with `userBuf`. -/
def ScanInv (c : Config) : Prop :=
  match c.scanner with
  | ScanPc.top => True
  | ScanPc.output => True
  | ScanPc.copy k =>
    c.shared.sUserBufReady = true ∧ k < 144 ∧
    ∀ j, j < k → getByte c.shared.buf (j / 18) (j % 18) = getByte c.shared.userBuf (j / 18) (j % 18)
  | ScanPc.clear =>
    c.shared.sUserBufReady = true ∧ c.shared.buf = c.shared.userBuf

/-- The frame `buf` is the initial pattern or the complete decoding of one
accepted buffer. -/
def WholeFrame (c : Config) : Prop :=
  c.shared.buf = INIT_BUFFER_PATTERN ∨ ∃ b ∈ c.accepted, c.shared.buf = decode_frame b

/-- The invariant of the interleaved executions. -/
structure Inv (c : Config) : Prop where
  buf_ok : FrameOK c.shared.buf
  userBuf_ok : FrameOK c.shared.userBuf
  writer_inv : WriterInv c
  scan_inv : ScanInv c
  pending : c.shared.sUserBufReady = true →
    ∃ b, c.accepted.getLast? = some b ∧ c.shared.userBuf = decode_frame b
  whole : (∀ k, c.scanner ≠ ScanPc.copy k) → WholeFrame c
  in_order : c.copied = (c.accepted.take c.copied.length).map decode_frame
  count : c.accepted.length =
    c.copied.length + (if c.shared.sUserBufReady = true ∧ c.scanner ≠ ScanPc.clear then 1 else 0)

/-- Every buffer that the producer is decoding or has deposited has at least
288 characters. -/
def LenInv (c : Config) : Prop :=
  (∀ b ∈ c.accepted, 288 ≤ b.length) ∧
  match c.writer with
  | WriterPc.idle => True
  | WriterPc.poll buffer => 288 ≤ buffer.length
  | WriterPc.store buffer _ _ _ => 288 ≤ buffer.length
  | WriterPc.set_ready buffer => 288 ≤ buffer.length

/-- A schedule in which the producer writes the scenario payload without being
interrupted (the call, the poll, 144 stores, the flag store) and the scan loop
then runs 100 steps, which brings it into the middle of the `memcpy`. -/
def scenario_schedule : List Action :=
  Action.call scenario_payload :: List.replicate 146 Action.writer ++
    List.replicate 100 Action.scanner

/-! ## Lemmas on hex decoding -/

theorem isHexDigit_cases {c : Nat} (h : isHexDigit c) :
    c = 48 ∨ c = 49 ∨ c = 50 ∨ c = 51 ∨ c = 52 ∨ c = 53 ∨ c = 54 ∨ c = 55 ∨ c = 56 ∨ c = 57 ∨
    c = 65 ∨ c = 66 ∨ c = 67 ∨ c = 68 ∨ c = 69 ∨ c = 70 ∨
    c = 97 ∨ c = 98 ∨ c = 99 ∨ c = 100 ∨ c = 101 ∨ c = 102 := by
  unfold isHexDigit at h
  omega

/-- On a hex digit the table read gives the digit's value. -/
theorem hexNibble_eq_hexval {c : Nat} (h : isHexDigit c) : hexNibble c = hexval c := by
  rcases isHexDigit_cases h with h | h | h | h | h | h | h | h | h | h | h | h | h | h | h | h |
    h | h | h | h | h | h <;> subst h <;> decide

theorem hexval_lt_16 (c : Nat) : hexval c < 16 := by
  unfold hexval
  split_ifs <;> omega

/-- Combining two nibbles the way `ascii2byte` does is `16 * hi + lo`. -/
theorem nibbles_combine {hi lo : Nat} (h1 : hi < 16) (h2 : lo < 16) :
    ((hi <<< 4) % 256 ||| lo) % 256 = 16 * hi + lo := by
  interval_cases hi <;> interval_cases lo <;> decide

/-- Value of `ascii2byte` on two hex digits. -/
theorem ascii2byte_hex {c1 c2 : Nat} (h1 : isHexDigit c1) (h2 : isHexDigit c2) :
    ascii2byte c1 c2 = 16 * hexval c1 + hexval c2 := by
  unfold ascii2byte
  rw [hexNibble_eq_hexval h1, hexNibble_eq_hexval h2]
  exact nibbles_combine (hexval_lt_16 c1) (hexval_lt_16 c2)

theorem hexval_toUpperAscii {c : Nat} (h : isHexDigit c) :
    hexval (toUpperAscii c) = hexval c := by
  rcases isHexDigit_cases h with h | h | h | h | h | h | h | h | h | h | h | h | h | h | h | h |
    h | h | h | h | h | h <;> subst h <;> decide

theorem isHexDigit_toUpperAscii {c : Nat} (h : isHexDigit c) :
    isHexDigit (toUpperAscii c) := by
  rcases isHexDigit_cases h with h | h | h | h | h | h | h | h | h | h | h | h | h | h | h | h |
    h | h | h | h | h | h <;> subst h <;> decide


/-! ## Lemmas on the frame arrays -/

theorem getByte_setByte (f : List (List Nat)) (row index v r i : Nat)
    (hr : row < f.length) (hi : index < (f.getD row []).length) :
    getByte (setByte f row index v) r i =
      if r = row ∧ i = index then v else getByte f r i := by
  unfold getByte setByte
  simp only [List.getD_eq_getElem?_getD] at hi ⊢
  by_cases h1 : r = row
  · subst h1
    rw [List.getElem?_eq_getElem hr] at hi
    by_cases h2 : i = index
    · subst h2
      simp at hi
      simp [List.getElem?_set, hr, hi]
    · simp [List.getElem?_set, hr, h2, Ne.symm h2]
  · simp [List.getElem?_set, h1, Ne.symm h1]

theorem FrameOK_setByte (f : List (List Nat)) (row index v : Nat) (h : FrameOK f) :
    FrameOK (setByte f row index v) := by
  unfold FrameOK setByte at *
  by_cases hr : row < f.length
  · refine ⟨by simp [h.1], ?_⟩
    intro rowData hmem
    rcases List.mem_or_eq_of_mem_set hmem with h1 | h1
    · exact h.2 _ h1
    · subst h1
      rw [List.length_set]
      have : f.getD row [] ∈ f := by
        rw [List.getD_eq_getElem?_getD, List.getElem?_eq_getElem hr]
        exact List.getElem_mem hr
      exact h.2 _ this
  · rw [List.set_eq_of_length_le (Nat.le_of_not_lt hr)]
    exact h

theorem FrameOK_row_length {f : List (List Nat)} (h : FrameOK f) {r : Nat} (hr : r < NUM_ROWS) :
    (f.getD r []).length = NUM_ROW_BYTES := by
  have hr2 : r < f.length := by rw [h.1]; exact hr
  apply h.2
  rw [List.getD_eq_getElem?_getD, List.getElem?_eq_getElem hr2]
  exact List.getElem_mem hr2

/-! ## Lemmas on the decoding loops of `dev_write` -/

/-- State of the inner loop of `dev_write` after its first `n` iterations. -/
theorem dev_write_row_prefix (buffer : List Nat) (row : Nat) (hrow : row < NUM_ROWS)
    (p : Nat × List (List Nat)) (hp : FrameOK p.2) (n : Nat) (hn : n ≤ NUM_ROW_BYTES) :
    let q := (List.range n).foldl (dev_write_byte buffer row) p
    q.1 = p.1 + 2 * n ∧ FrameOK q.2 ∧
    ∀ r i, getByte q.2 r i =
      if r = row ∧ i < n then ascii2byteAt buffer (p.1 + 2 * i) else getByte p.2 r i := by
  induction n with
  | zero => simp [hp]
  | succ n ih =>
    have ih := ih (Nat.le_of_succ_le hn)
    simp only [List.range_succ, List.foldl_append, List.foldl_cons, List.foldl_nil] at ih ⊢
    obtain ⟨h1, h2, h3⟩ := ih
    refine ⟨?_, ?_, ?_⟩
    · simp only [dev_write_byte, h1]; omega
    · exact FrameOK_setByte _ _ _ _ h2
    · intro r i
      simp only [dev_write_byte]
      rw [getByte_setByte _ _ _ _ _ _ (by rw [h2.1]; exact hrow)
        (by rw [FrameOK_row_length h2 hrow]; omega), h3, h1]
      by_cases hr : r = row
      · by_cases hi : i = n
        · simp [hr, hi]
        · have : (i < n + 1) = (i < n) := by
            apply propext; omega
          simp [hr, hi, this]
      · simp [hr]

/-- State of the nested loops of `dev_write` after the first `m` rows. -/
theorem dev_write_decode_prefix (buffer : List Nat) (userBuf : List (List Nat))
    (hu : FrameOK userBuf) (m : Nat) (hm : m ≤ NUM_ROWS) :
    let q := (List.range m).foldl (dev_write_row buffer) (0, userBuf)
    q.1 = 2 * NUM_ROW_BYTES * m ∧ FrameOK q.2 ∧
    ∀ r i, getByte q.2 r i =
      if r < m ∧ i < NUM_ROW_BYTES then ascii2byteAt buffer (2 * (NUM_ROW_BYTES * r + i))
      else getByte userBuf r i := by
  induction m with
  | zero => simp [hu]
  | succ m ih =>
    have ih := ih (Nat.le_of_succ_le hm)
    simp only [List.range_succ, List.foldl_append, List.foldl_cons, List.foldl_nil] at ih ⊢
    obtain ⟨h1, h2, h3⟩ := ih
    have hrow : m < NUM_ROWS := hm
    generalize (List.range m).foldl (dev_write_row buffer) (0, userBuf) = p at h1 h2 h3 ⊢
    have key : (dev_write_row buffer p m).1 = p.1 + 2 * NUM_ROW_BYTES ∧
        FrameOK (dev_write_row buffer p m).2 ∧
        ∀ r i, getByte (dev_write_row buffer p m).2 r i =
          if r = m ∧ i < NUM_ROW_BYTES then ascii2byteAt buffer (p.1 + 2 * i)
          else getByte p.2 r i :=
      dev_write_row_prefix buffer m hrow p h2 NUM_ROW_BYTES (Nat.le_refl _)
    obtain ⟨k1, k2, k3⟩ := key
    refine ⟨?_, k2, ?_⟩
    · rw [k1, h1, Nat.mul_succ]
    · intro r i
      rw [k3, h3, h1]
      by_cases hr : r = m
      · subst hr
        by_cases hi : i < NUM_ROW_BYTES
        · have e : 2 * NUM_ROW_BYTES * r + 2 * i = 2 * (NUM_ROW_BYTES * r + i) := by
            rw [Nat.mul_add, Nat.mul_assoc]
          simp [hi, e]
        · simp [hi]
      · have e : (r < m + 1) = (r < m) := by
          apply propext; omega
        simp [hr, e]

/-- What the nested loops of `dev_write` leave in `userBuf`. -/
theorem dev_write_decode_spec (buffer : List Nat) (userBuf : List (List Nat))
    (hu : FrameOK userBuf) :
    (dev_write_decode buffer userBuf).1 = 288 ∧
    FrameOK (dev_write_decode buffer userBuf).2 ∧
    ∀ r i, r < 8 → i < 18 →
      getByte (dev_write_decode buffer userBuf).2 r i = ascii2byteAt buffer (2 * (18 * r + i)) := by
  have key := dev_write_decode_prefix buffer userBuf hu NUM_ROWS (Nat.le_refl _)
  simp only at key
  obtain ⟨k1, k2, k3⟩ := key
  refine ⟨?_, k2, ?_⟩
  · unfold dev_write_decode
    rw [k1]
    rfl
  · intro r i hr hi
    unfold dev_write_decode
    rw [k3]
    have hr2 : r < NUM_ROWS := hr
    have hi2 : i < NUM_ROW_BYTES := hi
    rw [if_pos ⟨hr2, hi2⟩]
    rfl

/-- Two frames of the right dimensions with the same bytes are the same. -/
theorem frame_ext {f g : List (List Nat)} (hf : FrameOK f) (hg : FrameOK g)
    (h : ∀ r i, r < 8 → i < 18 → getByte f r i = getByte g r i) : f = g := by
  apply List.ext_getElem (by rw [hf.1, hg.1])
  intro r hr1 hr2
  have hr : r < 8 := by rw [hf.1] at hr1; exact hr1
  have lf : f[r].length = 18 := hf.2 _ (List.getElem_mem hr1)
  have lg : g[r].length = 18 := hg.2 _ (List.getElem_mem hr2)
  apply List.ext_getElem (by rw [lf, lg])
  intro i hi1 hi2
  have hi : i < 18 := by rw [lf] at hi1; exact hi1
  have := h r i hr hi
  simpa [getByte, List.getD_eq_getElem?_getD, List.getElem?_eq_getElem, hr1, hr2, hi1, hi2]
    using this

/-- The bytes decoded by `ascii2byteAt` depend only on the two characters read. -/
theorem charAt_of_take_eq {a b : List Nat} {n : Nat} (h : a.take n = b.take n) {k : Nat}
    (hk : k < n) : charAt a k = charAt b k := by
  unfold charAt
  have e1 : (a.take n)[k]? = a[k]? := List.getElem?_take_of_lt hk
  have e2 : (b.take n)[k]? = b[k]? := List.getElem?_take_of_lt hk
  rw [List.getD_eq_getElem?_getD, List.getD_eq_getElem?_getD, ← e1, ← e2, h]

/-! ## Lemmas on re-encoding -/

/-- Cutting a list into `n` consecutive chunks of `c` elements and gluing the
chunks together gives back its first `c * n` elements. -/
theorem chunks_flatten (l : List Nat) (c n : Nat) :
    ((List.range n).map (fun i => (l.drop (c * i)).take c)).flatten = l.take (c * n) := by
  induction n with
  | zero => simp
  | succ n ih =>
    rw [List.range_succ, List.map_append, List.flatten_append, ih, Nat.mul_succ, List.take_add]
    simp

theorem toUpperAscii_hexDigitChar_hexval {c : Nat} (h : isHexDigit c) :
    toUpperAscii (hexDigitChar (hexval c)) = toUpperAscii c := by
  rcases isHexDigit_cases h with h | h | h | h | h | h | h | h | h | h | h | h | h | h | h | h |
    h | h | h | h | h | h <;> subst h <;> decide

/-- Re-encoding the byte decoded at position `k` gives, up to case, the two
characters at positions `k` and `k + 1`. -/
theorem byte2hex_ascii2byteAt (payload : List Nat) (k : Nat) (hk : k + 1 < payload.length)
    (hhex : ∀ c ∈ payload, isHexDigit c) :
    (byte2hex (ascii2byteAt payload k)).map toUpperAscii =
      ((payload.map toUpperAscii).drop k).take 2 := by
  have hk0 : k < payload.length := by omega
  have e0 : charAt payload k = payload[k] := by
    simp [charAt, List.getD_eq_getElem?_getD, List.getElem?_eq_getElem hk0]
  have e1 : charAt payload (k + 1) = payload[k + 1] := by
    simp [charAt, List.getD_eq_getElem?_getD, List.getElem?_eq_getElem hk]
  have x0 : isHexDigit payload[k] := hhex _ (List.getElem_mem hk0)
  have x1 : isHexDigit payload[k + 1] := hhex _ (List.getElem_mem hk)
  have l0 : k < (payload.map toUpperAscii).length := by simpa using hk0
  have l1 : k + 1 < (payload.map toUpperAscii).length := by simpa using hk
  rw [List.drop_eq_getElem_cons l0, List.drop_eq_getElem_cons l1]
  unfold ascii2byteAt
  rw [e0, e1, ascii2byte_hex x0 x1]
  have b0 := hexval_lt_16 payload[k]
  have b1 := hexval_lt_16 payload[k + 1]
  have d : (16 * hexval payload[k] + hexval payload[k + 1]) / 16 = hexval payload[k] := by omega
  have m : (16 * hexval payload[k] + hexval payload[k + 1]) % 16 = hexval payload[k + 1] := by
    omega
  simp [byte2hex, d, m, toUpperAscii_hexDigitChar_hexval x0, toUpperAscii_hexDigitChar_hexval x1]

/-- A frame of the right dimensions is the table of its bytes. -/
theorem frame_eq_table {f : List (List Nat)} (hf : FrameOK f) :
    f = (List.range 8).map (fun r => (List.range 18).map (fun i => getByte f r i)) := by
  apply frame_ext hf
  · refine ⟨by simp [NUM_ROWS], ?_⟩
    intro rowData hmem
    simp only [List.mem_map] at hmem
    obtain ⟨r, _, rfl⟩ := hmem
    simp [NUM_ROW_BYTES]
  · intro r i hr hi
    conv_rhs => unfold getByte
    simp [getByte, List.getD_eq_getElem?_getD, List.getElem?_map, List.getElem?_range, hr, hi]

/-- Re-encoding the decoded frame reproduces a 288-character hex payload up to
letter case. -/
theorem encodeFrame_decode (payload : List Nat) (userBuf : List (List Nat))
    (hu : FrameOK userBuf) (hlen : payload.length = 288)
    (hhex : ∀ c ∈ payload, isHexDigit c) :
    (encodeFrame (dev_write_decode payload userBuf).2).map toUpperAscii =
      payload.map toUpperAscii := by
  obtain ⟨_, d2, d3⟩ := dev_write_decode_spec payload userBuf hu
  have rows : ∀ r ∈ List.range 8,
      (fun rowData : List Nat => ((rowData.map byte2hex).flatten).map toUpperAscii)
        ((List.range 18).map (fun i => getByte (dev_write_decode payload userBuf).2 r i)) =
      ((payload.map toUpperAscii).drop (36 * r)).take 36 := by
    intro r hr
    have hr : r < 8 := List.mem_range.mp hr
    have bytes : ∀ i ∈ List.range 18,
        (fun i => (byte2hex (getByte (dev_write_decode payload userBuf).2 r i)).map toUpperAscii) i =
        (((payload.map toUpperAscii).drop (36 * r)).drop (2 * i)).take 2 := by
      intro i hi
      have hi : i < 18 := List.mem_range.mp hi
      dsimp only
      rw [d3 r i hr hi, byte2hex_ascii2byteAt payload _ (by omega) hhex, List.drop_drop]
      congr 2
      omega
    dsimp only
    rw [List.map_flatten, List.map_map, List.map_map]
    have := chunks_flatten ((payload.map toUpperAscii).drop (36 * r)) 2 18
    rw [← List.map_congr_left bytes] at this
    exact this
  unfold encodeFrame
  rw [List.map_flatten, List.map_map]
  conv_lhs => rw [frame_eq_table d2]
  rw [List.map_map]
  have := chunks_flatten (payload.map toUpperAscii) 36 8
  rw [← List.map_congr_left rows] at this
  rw [List.take_of_length_le (by simp [hlen])] at this
  exact this

/-- With at least 288 characters and the flag clear, `dev_write` decodes into
`userBuf`, sets the flag and returns the length. -/
theorem dev_write_run (s : State) (b : List Nat) (hb : 288 ≤ b.length)
    (hempty : s.sUserBufReady = false) :
    dev_write s b = some ((b.length : Int),
      { s with userBuf := (dev_write_decode b s.userBuf).2, sUserBufReady := true }) := by
  have hb2 : ¬ b.length < NUM_ROWS * NUM_ROW_BYTES * 2 := by
    simp only [NUM_ROWS, NUM_ROW_BYTES]; omega
  simp [dev_write, hb2, hempty]

/-! ## Claims on the write path -/

/-- C1: for every input buffer of length at least 288 whose first 288
characters are hex digits, `dev_write` called with the slot empty returns and
leaves `userBuf[r][i] = 16 * hexval(buffer[2*(18*r+i)]) + hexval(buffer[2*(18*r+i)+1])`
for all `r < 8`, `i < 18`, with `sUserBufReady = 1`; the frame keeps its
dimensions, the other variables are untouched, and the characters after the
288th are ignored (any buffer with the same first 288 characters gives the
same `userBuf`). -/
theorem dev_write_fills_userBuf (s : State) (buffer : List Nat)
    (hlen : 288 ≤ buffer.length)
    (hhex : ∀ k, k < 288 → isHexDigit (charAt buffer k))
    (hempty : s.sUserBufReady = false)
    (hdim : FrameOK s.userBuf) :
    ∃ s1, dev_write s buffer = some ((buffer.length : Int), s1) ∧
      (∀ r i, r < 8 → i < 18 →
        getByte s1.userBuf r i =
          16 * hexval (charAt buffer (2 * (18 * r + i))) +
            hexval (charAt buffer (2 * (18 * r + i) + 1))) ∧
      s1.sUserBufReady = true ∧
      FrameOK s1.userBuf ∧
      s1.buf = s.buf ∧ s1.row = s.row ∧ s1.gpio = s.gpio ∧
      (∀ buffer2 : List Nat, 288 ≤ buffer2.length → buffer2.take 288 = buffer.take 288 →
        ∃ s2, dev_write s buffer2 = some ((buffer2.length : Int), s2) ∧
          s2.userBuf = s1.userBuf) := by
  have run : ∀ b : List Nat, 288 ≤ b.length →
      dev_write s b = some ((b.length : Int),
        { s with userBuf := (dev_write_decode b s.userBuf).2, sUserBufReady := true }) :=
    fun b hb => dev_write_run s b hb hempty
  obtain ⟨_, d2, d3⟩ := dev_write_decode_spec buffer s.userBuf hdim
  refine ⟨{ s with userBuf := (dev_write_decode buffer s.userBuf).2, sUserBufReady := true },
    run buffer hlen, ?_, rfl, ?_, rfl, rfl, rfl, ?_⟩
  · intro r i hr hi
    have hk : 2 * (18 * r + i) + 1 < 288 := by omega
    dsimp only
    rw [d3 r i hr hi]
    exact ascii2byte_hex (hhex _ (by omega)) (hhex _ hk)
  · dsimp only
    exact d2
  · intro buffer2 hlen2 htake
    refine ⟨{ s with userBuf := (dev_write_decode buffer2 s.userBuf).2, sUserBufReady := true },
      run buffer2 hlen2, ?_⟩
    obtain ⟨_, e2, e3⟩ := dev_write_decode_spec buffer2 s.userBuf hdim
    dsimp only
    apply frame_ext e2 d2
    intro r i hr hi
    rw [e3 r i hr hi, d3 r i hr hi]
    unfold ascii2byteAt
    rw [charAt_of_take_eq htake (show 2 * (18 * r + i) < 288 by omega),
      charAt_of_take_eq htake (show 2 * (18 * r + i) + 1 < 288 by omega)]

set_option maxRecDepth 100000 in
/-- Witness for C1: the text of `fill_row(3, str)` written into the initial
state. -/
theorem dev_write_fills_userBuf_witness :
    (288 ≤ (fill_row 3).length ∧ (∀ k, k < 288 → isHexDigit (charAt (fill_row 3) k)) ∧
      init.sUserBufReady = false ∧ FrameOK init.userBuf) ∧
    ∃ s1, dev_write init (fill_row 3) = some (((fill_row 3).length : Int), s1) ∧
      (∀ r i, r < 8 → i < 18 →
        getByte s1.userBuf r i =
          16 * hexval (charAt (fill_row 3) (2 * (18 * r + i))) +
            hexval (charAt (fill_row 3) (2 * (18 * r + i) + 1))) ∧
      s1.sUserBufReady = true ∧
      FrameOK s1.userBuf ∧
      s1.buf = init.buf ∧ s1.row = init.row ∧ s1.gpio = init.gpio ∧
      (∀ buffer2 : List Nat, 288 ≤ buffer2.length →
        buffer2.take 288 = (fill_row 3).take 288 →
        ∃ s2, dev_write init buffer2 = some ((buffer2.length : Int), s2) ∧
          s2.userBuf = s1.userBuf) :=
  ⟨⟨by decide, by decide, rfl, by decide⟩,
    dev_write_fills_userBuf init (fill_row 3) (by decide) (by decide) rfl (by decide)⟩

/-- C2: for every payload shorter than 288 characters `dev_write` returns
`-EINVAL` (that is, -22) and the returned state is the state before the call:
every byte of `userBuf`, the flag `sUserBufReady` and all other variables are
unchanged, whatever the value of the flag was. -/
theorem dev_write_short_rejected (s : State) (buffer : List Nat)
    (hlen : buffer.length < 288) :
    dev_write s buffer = some (-EINVAL, s) ∧ -EINVAL = (-22 : Int) := by
  have h : buffer.length < NUM_ROWS * NUM_ROW_BYTES * 2 := hlen
  simp [dev_write, h, EINVAL]

/-- Witness for C2: the two-character payload `"FF"` written while the flag
is set. -/
theorem dev_write_short_rejected_witness :
    [70, 70].length < 288 ∧
    dev_write { init with sUserBufReady := true } [70, 70] =
      some (-EINVAL, { init with sUserBufReady := true }) ∧ -EINVAL = (-22 : Int) :=
  ⟨by decide, dev_write_short_rejected { init with sUserBufReady := true } [70, 70] (by decide)⟩

/-- C4: for every pair of hex digit characters, in any mix of cases,
`ascii2byte` returns `16 * hexval c1 + hexval c2`; the result does not change
when either character, or both, is replaced by its upper-case counterpart. -/
theorem ascii2byte_hex_digits (c1 c2 : Nat) (h1 : isHexDigit c1) (h2 : isHexDigit c2) :
    ascii2byte c1 c2 = 16 * hexval c1 + hexval c2 ∧
    ascii2byte (toUpperAscii c1) c2 = ascii2byte c1 c2 ∧
    ascii2byte c1 (toUpperAscii c2) = ascii2byte c1 c2 ∧
    ascii2byte (toUpperAscii c1) (toUpperAscii c2) = ascii2byte c1 c2 := by
  have u1 := isHexDigit_toUpperAscii h1
  have u2 := isHexDigit_toUpperAscii h2
  rw [ascii2byte_hex h1 h2, ascii2byte_hex u1 h2, ascii2byte_hex h1 u2, ascii2byte_hex u1 u2,
    hexval_toUpperAscii h1, hexval_toUpperAscii h2]
  exact ⟨rfl, rfl, rfl, rfl⟩

/-- Witness for C4: the pair `'a'`, `'F'` decodes to `0xAF`, as does `'A'`, `'F'`. -/
theorem ascii2byte_hex_digits_witness :
    (isHexDigit 97 ∧ isHexDigit 70) ∧
    ascii2byte 97 70 = 16 * hexval 97 + hexval 70 ∧
    ascii2byte (toUpperAscii 97) 70 = ascii2byte 97 70 ∧
    ascii2byte 97 (toUpperAscii 70) = ascii2byte 97 70 ∧
    ascii2byte (toUpperAscii 97) (toUpperAscii 70) = ascii2byte 97 70 :=
  ⟨by decide, ascii2byte_hex_digits 97 70 (by decide) (by decide)⟩

/-- C3: for every valid 288-character hex payload, written with the slot
empty, `dev_write` returns 288 and re-encoding the decoded frame (each byte as
two hex digits, most-significant nibble first, row-major) gives a
288-character text equal to the payload up to letter case. -/
theorem dev_write_roundtrip (s : State) (payload : List Nat)
    (hlen : payload.length = 288)
    (hhex : ∀ c ∈ payload, isHexDigit c)
    (hempty : s.sUserBufReady = false)
    (hdim : FrameOK s.userBuf) :
    ∃ s1, dev_write s payload = some (288, s1) ∧
      (encodeFrame s1.userBuf).length = 288 ∧
      eqIgnoreCase (encodeFrame s1.userBuf) payload := by
  have key := encodeFrame_decode payload s.userBuf hdim hlen hhex
  refine ⟨{ s with userBuf := (dev_write_decode payload s.userBuf).2, sUserBufReady := true },
    ?_, ?_, ?_⟩
  · rw [dev_write_run s payload (by omega) hempty, hlen]
    rfl
  · dsimp only
    have := congrArg List.length key
    rw [List.length_map, List.length_map, hlen] at this
    exact this
  · dsimp only [eqIgnoreCase]
    exact key

set_option maxRecDepth 100000 in
/-- Witness for C3: the text of `fill_row(3, str)` written into the initial
state. -/
theorem dev_write_roundtrip_witness :
    ((fill_row 3).length = 288 ∧ (∀ c ∈ fill_row 3, isHexDigit c) ∧
      init.sUserBufReady = false ∧ FrameOK init.userBuf) ∧
    ∃ s1, dev_write init (fill_row 3) = some (288, s1) ∧
      (encodeFrame s1.userBuf).length = 288 ∧
      eqIgnoreCase (encodeFrame s1.userBuf) (fill_row 3) :=
  ⟨⟨by decide, by decide, rfl, by decide⟩,
    dev_write_roundtrip init (fill_row 3) (by decide) (by decide) rfl (by decide)⟩

/-! ## Lemmas on the row serialiser -/

/-- The iteration bound of `write_byte_bits` is never what ends the loop: any
two bounds that are at least `mask` give the same calls. -/
theorem write_byte_bits_bound (b : Nat) (n : Nat) :
    ∀ m mask, mask ≤ n → mask ≤ m → write_byte_bits b n mask = write_byte_bits b m mask := by
  induction n with
  | zero =>
    intro m mask h1 _
    have h0 : mask = 0 := Nat.le_zero.mp h1
    subst h0
    cases m <;> simp [write_byte_bits]
  | succ n ih =>
    intro m mask h1 h2
    cases m with
    | zero =>
      have h0 : mask = 0 := Nat.le_zero.mp h2
      subst h0
      simp [write_byte_bits]
    | succ m =>
      by_cases hm : mask = 0
      · simp [write_byte_bits, hm]
      · have hs : mask >>> 1 < mask := by
          rw [Nat.shiftRight_eq_div_pow]
          exact Nat.div_lt_self (Nat.pos_of_ne_zero hm) (by decide)
        simp only [write_byte_bits, ne_eq, hm, not_false_eq_true, if_true]
        rw [ih m (mask >>> 1) (by omega) (by omega)]

/-- Testing a bit with a one-bit mask, as `(b & mask) ? 1 : 0` does. -/
theorem and_mask_bit (b j : Nat) : (if b &&& 2 ^ j ≠ 0 then 1 else 0) = bitOf b j := by
  unfold bitOf
  have e : b &&& 2 ^ j = (b / 2 ^ j % 2) * 2 ^ j := by
    rw [Nat.and_two_pow, Nat.toNat_testBit]
  rw [e, Nat.shiftRight_eq_div_pow]
  have h2 : 0 < 2 ^ j := Nat.pow_pos (by decide)
  rcases Nat.mod_two_eq_zero_or_one (b / 2 ^ j) with h | h
  · simp [h]
  · simp [h, Nat.ne_of_gt h2]

/-- The calls made by the inner loop of `write_row_data` for one byte: eight
groups `D0 := bit`, `CLK := 1`, `CLK := 0`, bit 7 first. -/
theorem write_byte_bits_eq (b : Nat) :
    write_byte_bits b 0x80 0x80 =
      [(gpioD0, bitOf b 7), (gpioCLK, 1), (gpioCLK, 0),
       (gpioD0, bitOf b 6), (gpioCLK, 1), (gpioCLK, 0),
       (gpioD0, bitOf b 5), (gpioCLK, 1), (gpioCLK, 0),
       (gpioD0, bitOf b 4), (gpioCLK, 1), (gpioCLK, 0),
       (gpioD0, bitOf b 3), (gpioCLK, 1), (gpioCLK, 0),
       (gpioD0, bitOf b 2), (gpioCLK, 1), (gpioCLK, 0),
       (gpioD0, bitOf b 1), (gpioCLK, 1), (gpioCLK, 0),
       (gpioD0, bitOf b 0), (gpioCLK, 1), (gpioCLK, 0)] := by
  rw [← and_mask_bit b 7, ← and_mask_bit b 6, ← and_mask_bit b 5, ← and_mask_bit b 4,
    ← and_mask_bit b 3, ← and_mask_bit b 2, ← and_mask_bit b 1, ← and_mask_bit b 0]
  rfl

theorem write_byte_bits_length (b : Nat) : (write_byte_bits b 0x80 0x80).length = 24 := by
  rw [write_byte_bits_eq]
  rfl

theorem write_row_data_succ (rowData : List Nat) (n : Nat) :
    write_row_data rowData (n + 1) =
      write_byte_bits (rowData.headD 0) 0x80 0x80 ++ write_row_data rowData.tail n := rfl

theorem write_row_data_length (n : Nat) :
    ∀ rowData : List Nat, (write_row_data rowData n).length = 24 * n := by
  induction n with
  | zero => intro rowData; rfl
  | succ n ih =>
    intro rowData
    rw [write_row_data_succ, List.length_append, write_byte_bits_length, ih]
    omega

/-- The row serialiser calls `gpio_set_value` on the data and clock pins only. -/
theorem write_row_data_pins (n : Nat) :
    ∀ rowData : List Nat, ∀ w ∈ write_row_data rowData n, w.1 = gpioD0 ∨ w.1 = gpioCLK := by
  induction n with
  | zero => intro rowData w hw; simp [write_row_data] at hw
  | succ n ih =>
    intro rowData w hw
    rw [write_row_data_succ, List.mem_append] at hw
    rcases hw with hw | hw
    · rw [write_byte_bits_eq] at hw
      simp only [List.mem_cons, List.mem_singleton, List.not_mem_nil, or_false] at hw
      rcases hw with h | h | h | h | h | h | h | h | h | h | h | h | h | h | h | h | h | h |
        h | h | h | h | h | h <;> subst h <;> simp
    · exact ih _ w hw

/-- The `k`-th pulse group of the row serialiser. -/
theorem write_row_data_group (n : Nat) :
    ∀ (rowData : List Nat) (k : Nat), k < 8 * n →
      (write_row_data rowData n)[3 * k]? =
        some (gpioD0, bitOf (rowData.getD (k / 8) 0) (7 - k % 8)) ∧
      (write_row_data rowData n)[3 * k + 1]? = some (gpioCLK, 1) ∧
      (write_row_data rowData n)[3 * k + 2]? = some (gpioCLK, 0) := by
  induction n with
  | zero => intro rowData k hk; omega
  | succ n ih =>
    intro rowData k hk
    rw [write_row_data_succ]
    by_cases h8 : k < 8
    · have hd : rowData.getD (k / 8) 0 = rowData.headD 0 := by
        have : k / 8 = 0 := by omega
        rw [this]
        cases rowData <;> rfl
      rw [hd]
      rw [List.getElem?_append_left (by rw [write_byte_bits_length]; omega),
        List.getElem?_append_left (by rw [write_byte_bits_length]; omega),
        List.getElem?_append_left (by rw [write_byte_bits_length]; omega),
        write_byte_bits_eq]
      interval_cases k <;> exact ⟨rfl, rfl, rfl⟩
    · obtain ⟨j, rfl⟩ : ∃ j, k = j + 8 := ⟨k - 8, by omega⟩
      have hj : j < 8 * n := by omega
      have hd : rowData.getD ((j + 8) / 8) 0 = rowData.tail.getD (j / 8) 0 := by
        have : (j + 8) / 8 = j / 8 + 1 := by omega
        rw [this]
        cases rowData <;> simp
      have hm : (j + 8) % 8 = j % 8 := by omega
      have e0 : 3 * (j + 8) = 3 * j + 24 := by omega
      have e1 : 3 * j + 24 + 1 = (3 * j + 1) + 24 := by omega
      have e2 : 3 * j + 24 + 2 = (3 * j + 2) + 24 := by omega
      have shift : ∀ i, (write_byte_bits (rowData.headD 0) 0x80 0x80 ++
          write_row_data rowData.tail n)[i + 24]? = (write_row_data rowData.tail n)[i]? := by
        intro i
        rw [List.getElem?_append_right (by rw [write_byte_bits_length]; omega),
          write_byte_bits_length]
        simp
      rw [hd, hm, e0, e1, e2, shift, shift, shift]
      exact ih rowData.tail j hj

/-! ## Claims on the row serialiser -/

/-- C5: for every row of `numBytes` bytes, `write_row_data` makes exactly
`3 * (8 * numBytes)` GPIO calls, namely `8 * numBytes` pulse groups: the
`k`-th group is `D0 := bit (7 - k mod 8) of byte (k div 8)`, `CLK := 1`,
`CLK := 0`; every call is on the data or the clock pin, so none is on the
latch, blank or row-select pins. -/
theorem write_row_data_pulses (rowData : List Nat) (numBytes : Nat)
    (hlen : rowData.length = numBytes) :
    (write_row_data rowData numBytes).length = 3 * (8 * numBytes) ∧
    (∀ k, k < 8 * numBytes →
      (write_row_data rowData numBytes)[3 * k]? =
        some (gpioD0, bitOf (rowData.getD (k / 8) 0) (7 - k % 8)) ∧
      (write_row_data rowData numBytes)[3 * k + 1]? = some (gpioCLK, 1) ∧
      (write_row_data rowData numBytes)[3 * k + 2]? = some (gpioCLK, 0)) ∧
    (∀ w ∈ write_row_data rowData numBytes,
      (w.1 = gpioD0 ∨ w.1 = gpioCLK) ∧
      w.1 ≠ gpioSTB ∧ w.1 ≠ gpioBLK ∧ w.1 ≠ gpioA0 ∧ w.1 ≠ gpioA1 ∧ w.1 ≠ gpioA2) := by
  subst hlen
  refine ⟨?_, write_row_data_group _ rowData, ?_⟩
  · rw [write_row_data_length]; omega
  · intro w hw
    have h := write_row_data_pins _ rowData w hw
    refine ⟨h, ?_⟩
    rcases h with h | h <;> rw [h] <;> decide

/-- Witness for C5: the two-byte row `0xA5, 0x01`. -/
theorem write_row_data_pulses_witness :
    [0xA5, 0x01].length = 2 ∧
    (write_row_data [0xA5, 0x01] 2).length = 3 * (8 * 2) ∧
    (∀ k, k < 8 * 2 →
      (write_row_data [0xA5, 0x01] 2)[3 * k]? =
        some (gpioD0, bitOf ([0xA5, 0x01].getD (k / 8) 0) (7 - k % 8)) ∧
      (write_row_data [0xA5, 0x01] 2)[3 * k + 1]? = some (gpioCLK, 1) ∧
      (write_row_data [0xA5, 0x01] 2)[3 * k + 2]? = some (gpioCLK, 0)) ∧
    (∀ w ∈ write_row_data [0xA5, 0x01] 2,
      (w.1 = gpioD0 ∨ w.1 = gpioCLK) ∧
      w.1 ≠ gpioSTB ∧ w.1 ≠ gpioBLK ∧ w.1 ≠ gpioA0 ∧ w.1 ≠ gpioA1 ∧ w.1 ≠ gpioA2) :=
  ⟨rfl, write_row_data_pulses [0xA5, 0x01] 2 rfl⟩

/-! ## Lemmas on the scan cycle -/

theorem take_pending_row (s : State) : (take_pending s).row = s.row := by
  unfold take_pending
  split <;> rfl

theorem take_pending_gpio (s : State) : (take_pending s).gpio = s.gpio := by
  unfold take_pending
  split <;> rfl

theorem take_pending_buf (s : State) :
    (take_pending s).buf = if s.sUserBufReady then s.userBuf else s.buf := by
  unfold take_pending
  split <;> rfl

theorem take_pending_userBuf (s : State) : (take_pending s).userBuf = s.userBuf := by
  unfold take_pending
  split <;> rfl

theorem take_pending_flag (s : State) : (take_pending s).sUserBufReady = false := by
  unfold take_pending
  split
  · rfl
  · simpa using ‹¬ s.sUserBufReady = true›

theorem update_row_cycle_row (s : State) : (update_row_cycle s).row = next_row s.row := by
  simp only [update_row_cycle, take_pending_row]

theorem update_row_cycle_buf (s : State) :
    (update_row_cycle s).buf = if s.sUserBufReady then s.userBuf else s.buf := by
  simp only [update_row_cycle, take_pending_buf]

theorem update_row_cycle_gpio (s : State) :
    (update_row_cycle s).gpio =
      s.gpio ++ cycle_writes (update_row_cycle s).buf (update_row_cycle s).row := by
  simp only [update_row_cycle, take_pending_gpio]

/-- The row step never leaves `0..7`, whatever the row was. -/
theorem next_row_le (row : Nat) : next_row row ≤ 7 := by
  unfold next_row
  split <;> omega

theorem next_row_eq_mod {row : Nat} (h : row < 8) : next_row row = (row + 1) % 8 := by
  unfold next_row
  split <;> omega

/-- A call of `dev_write` that returns leaves `row` as it was. -/
theorem dev_write_row_unchanged {s s1 : State} {buffer : List Nat} {ret : Int}
    (h : dev_write s buffer = some (ret, s1)) : s1.row = s.row := by
  by_cases h1 : buffer.length < NUM_ROWS * NUM_ROW_BYTES * 2
  · simp only [dev_write, h1, if_true, Option.some.injEq, Prod.mk.injEq] at h
    rw [← h.2]
  · by_cases h2 : s.sUserBufReady = true
    · simp [dev_write, h1, h2] at h
    · have h3 : s.sUserBufReady = false := by simpa using h2
      rw [dev_write_run s buffer (by simp only [NUM_ROWS, NUM_ROW_BYTES] at h1; omega) h3] at h
      simp only [Option.some.injEq, Prod.mk.injEq] at h
      rw [← h.2]

theorem reachable_row_lt {s : State} (h : Reachable s) : s.row < 8 := by
  induction h with
  | init => decide
  | cycle _ _ =>
    rw [update_row_cycle_row]
    exact Nat.lt_succ_of_le (next_row_le _)
  | write _ hw ih =>
    rw [dev_write_row_unchanged hw]
    exact ih

theorem update_row_row_lt (n : Nat) : ∀ s : State, s.row < 8 → (update_row n s).row < 8 := by
  induction n with
  | zero => intro s h; exact h
  | succ n ih =>
    intro s _
    apply ih
    rw [update_row_cycle_row]
    exact Nat.lt_succ_of_le (next_row_le _)

/-- The rows output by `n` consecutive cycles are the successors of the entry
row, modulo 8. -/
theorem rows_scanned_eq (n : Nat) :
    ∀ s : State, s.row < 8 →
      rows_scanned n s = (List.range n).map (fun j => (s.row + 1 + j) % 8) := by
  induction n with
  | zero => intro s _; rfl
  | succ n ih =>
    intro s h
    have hr : (update_row_cycle s).row = (s.row + 1) % 8 := by
      rw [update_row_cycle_row, next_row_eq_mod h]
    have hlt : (update_row_cycle s).row < 8 := by rw [hr]; omega
    rw [rows_scanned, ih _ hlt, hr, List.range_succ_eq_map, List.map_cons, List.map_map]
    congr 1
    apply List.map_congr_left
    intro j _
    simp only [Function.comp, Nat.succ_eq_add_one]
    omega

/-- The two-state row-select value written by `update_row` is the bit itself. -/
theorem row_select_writes_eq {row : Nat} (h : row ≤ 7) :
    row_select_writes row =
      [(gpioA0, row &&& 1), (gpioA1, (row >>> 1) &&& 1), (gpioA2, (row >>> 2) &&& 1)] ∧
    4 * ((row >>> 2) &&& 1) + 2 * ((row >>> 1) &&& 1) + (row &&& 1) = row := by
  interval_cases row <;> exact ⟨rfl, rfl⟩

/-! ## Claims on the scan cycle -/

/-- C6: in every scan cycle of `update_row`, when `sUserBufReady` is set on
entry `buf` becomes `userBuf` (all 8 x 18 bytes) and the row serialised in
that same cycle is already a row of the new frame; when the flag is clear
`buf` is left unchanged and the row serialised is a row of `buf`.  All GPIO
calls of the cycle come after the copy: they are the serialisation of one row
of the resulting `buf` followed by the control calls. -/
theorem update_row_cycle_swaps_first (s : State) :
    (update_row_cycle s).buf = (if s.sUserBufReady then s.userBuf else s.buf) ∧
    (∀ r i, getByte (update_row_cycle s).buf r i =
      if s.sUserBufReady then getByte s.userBuf r i else getByte s.buf r i) ∧
    (update_row_cycle s).gpio =
      s.gpio ++
        (write_row_data ((if s.sUserBufReady then s.userBuf else s.buf).getD
            (update_row_cycle s).row []) NUM_ROW_BYTES ++
          control_writes (update_row_cycle s).row) := by
  refine ⟨update_row_cycle_buf s, ?_, ?_⟩
  · intro r i
    rw [update_row_cycle_buf]
    split <;> rfl
  · rw [update_row_cycle_gpio, update_row_cycle_buf]
    rfl

/-- C7: for every scan cycle entered with `row` in `0..7`, the row serialised
and selected in that cycle is `(row + 1) mod 8`; `row` stays below 8 after any
number of cycles and in every reachable state; and 8 consecutive cycles output
the rows `(row + 1) mod 8, ..., (row + 8) mod 8`, a rearrangement of `0..7`
without repetition. -/
theorem update_row_row_cycles (s : State) (hrow : s.row < 8) :
    (update_row_cycle s).row = (s.row + 1) % 8 ∧
    (update_row_cycle s).gpio =
      s.gpio ++
        (write_row_data ((update_row_cycle s).buf.getD ((s.row + 1) % 8) []) NUM_ROW_BYTES ++
          control_writes ((s.row + 1) % 8)) ∧
    (∀ n, (update_row n s).row < 8) ∧
    (∀ t, Reachable t → t.row < 8) ∧
    rows_scanned 8 s = (List.range 8).map (fun j => (s.row + 1 + j) % 8) ∧
    (rows_scanned 8 s).Perm (List.range 8) ∧
    (rows_scanned 8 s).Nodup := by
  have hr : (update_row_cycle s).row = (s.row + 1) % 8 := by
    rw [update_row_cycle_row, next_row_eq_mod hrow]
  have hscan := rows_scanned_eq 8 s hrow
  refine ⟨hr, ?_, fun n => update_row_row_lt n s hrow, fun t ht => reachable_row_lt ht,
    hscan, ?_, ?_⟩
  · rw [update_row_cycle_gpio, hr]
    rfl
  · rw [hscan]
    generalize s.row = r at hrow
    interval_cases r <;> decide
  · rw [hscan]
    generalize s.row = r at hrow
    interval_cases r <;> decide

/-- Witness for C7: the initial state, where `row = 0`. -/
theorem update_row_row_cycles_witness :
    init.row < 8 ∧
    (update_row_cycle init).row = (init.row + 1) % 8 ∧
    (update_row_cycle init).gpio =
      init.gpio ++
        (write_row_data ((update_row_cycle init).buf.getD ((init.row + 1) % 8) [])
            NUM_ROW_BYTES ++
          control_writes ((init.row + 1) % 8)) ∧
    (∀ n, (update_row n init).row < 8) ∧
    (∀ t, Reachable t → t.row < 8) ∧
    rows_scanned 8 init = (List.range 8).map (fun j => (init.row + 1 + j) % 8) ∧
    (rows_scanned 8 init).Perm (List.range 8) ∧
    (rows_scanned 8 init).Nodup :=
  ⟨by decide, update_row_row_cycles init (by decide)⟩

/-- C9: in every scan cycle of `update_row` the GPIO calls are, in order: the
data and clock calls of `write_row_data` for the row just advanced to, then
`BLK := 1`, then `A0 := row & 1`, `A1 := (row >> 1) & 1`, `A2 := (row >> 2) & 1`,
then `STB := 1` (followed by `STB := 0`, `BLK := 0`); the three values satisfy
`4 * A2 + 2 * A1 + A0 = row`, and no data or clock call follows them. -/
theorem update_row_row_select (s : State) :
    (update_row_cycle s).gpio =
      s.gpio ++
        (write_row_data ((update_row_cycle s).buf.getD (update_row_cycle s).row [])
            NUM_ROW_BYTES ++
          [(gpioBLK, 1),
           (gpioA0, (update_row_cycle s).row &&& 1),
           (gpioA1, ((update_row_cycle s).row >>> 1) &&& 1),
           (gpioA2, ((update_row_cycle s).row >>> 2) &&& 1),
           (gpioSTB, 1), (gpioSTB, 0), (gpioBLK, 0)]) ∧
    4 * (((update_row_cycle s).row >>> 2) &&& 1) + 2 * (((update_row_cycle s).row >>> 1) &&& 1) +
      ((update_row_cycle s).row &&& 1) = (update_row_cycle s).row ∧
    (∀ w ∈ write_row_data ((update_row_cycle s).buf.getD (update_row_cycle s).row [])
        NUM_ROW_BYTES, w.1 = gpioD0 ∨ w.1 = gpioCLK) := by
  have hle : (update_row_cycle s).row ≤ 7 := by
    rw [update_row_cycle_row]
    exact next_row_le _
  obtain ⟨h1, h2⟩ := row_select_writes_eq hle
  refine ⟨?_, h2, write_row_data_pins _ _⟩
  rw [update_row_cycle_gpio]
  simp only [cycle_writes, control_writes, h1, List.cons_append, List.nil_append]

/-- C10: in every scan cycle of `update_row` the GPIO calls that follow the
data shift are exactly `BLK := 1`, the three row-select calls (on A0, A1, A2 in
that order), `STB := 1`, `STB := 0`, `BLK := 0`, in this order and with
nothing between them; over the whole cycle the calls on the latch pin are
`STB := 1, STB := 0` (one pulse) and the calls on the blank pin are
`BLK := 1, BLK := 0`. -/
theorem update_row_control_sequence (s : State) :
    (update_row_cycle s).gpio =
      s.gpio ++
        (write_row_data ((update_row_cycle s).buf.getD (update_row_cycle s).row [])
            NUM_ROW_BYTES ++
          [(gpioBLK, 1),
           (gpioA0, (update_row_cycle s).row &&& 1),
           (gpioA1, ((update_row_cycle s).row >>> 1) &&& 1),
           (gpioA2, ((update_row_cycle s).row >>> 2) &&& 1),
           (gpioSTB, 1), (gpioSTB, 0), (gpioBLK, 0)]) ∧
    (write_row_data ((update_row_cycle s).buf.getD (update_row_cycle s).row [])
      NUM_ROW_BYTES).length = 3 * (8 * 18) ∧
    (update_row_cycle s).gpio.drop (s.gpio.length + 3 * (8 * 18)) =
      [(gpioBLK, 1),
       (gpioA0, (update_row_cycle s).row &&& 1),
       (gpioA1, ((update_row_cycle s).row >>> 1) &&& 1),
       (gpioA2, ((update_row_cycle s).row >>> 2) &&& 1),
       (gpioSTB, 1), (gpioSTB, 0), (gpioBLK, 0)] ∧
    ((update_row_cycle s).gpio.drop s.gpio.length).filter (fun w => w.1 == gpioSTB) =
      [(gpioSTB, 1), (gpioSTB, 0)] ∧
    ((update_row_cycle s).gpio.drop s.gpio.length).filter (fun w => w.1 == gpioBLK) =
      [(gpioBLK, 1), (gpioBLK, 0)] := by
  have hle : (update_row_cycle s).row ≤ 7 := by
    rw [update_row_cycle_row]
    exact next_row_le _
  obtain ⟨h1, _⟩ := row_select_writes_eq hle
  have hlen : (write_row_data ((update_row_cycle s).buf.getD (update_row_cycle s).row [])
      NUM_ROW_BYTES).length = 3 * (8 * 18) := by
    rw [write_row_data_length]
    rfl
  have hdata : ∀ pin, pin ≠ gpioD0 → pin ≠ gpioCLK →
      (write_row_data ((update_row_cycle s).buf.getD (update_row_cycle s).row [])
        NUM_ROW_BYTES).filter (fun w => w.1 == pin) = [] := by
    intro pin h1 h2
    rw [List.filter_eq_nil_iff]
    intro w hw
    rcases write_row_data_pins _ _ w hw with h | h <;> rw [h] <;> simp [Ne.symm h1, Ne.symm h2]
  have hg : (update_row_cycle s).gpio =
      s.gpio ++
        (write_row_data ((update_row_cycle s).buf.getD (update_row_cycle s).row [])
            NUM_ROW_BYTES ++
          [(gpioBLK, 1),
           (gpioA0, (update_row_cycle s).row &&& 1),
           (gpioA1, ((update_row_cycle s).row >>> 1) &&& 1),
           (gpioA2, ((update_row_cycle s).row >>> 2) &&& 1),
           (gpioSTB, 1), (gpioSTB, 0), (gpioBLK, 0)]) := by
    rw [update_row_cycle_gpio]
    simp only [cycle_writes, control_writes, h1, List.cons_append, List.nil_append]
  refine ⟨hg, hlen, ?_, ?_, ?_⟩
  · rw [hg, ← List.append_assoc, List.drop_left']
    rw [List.length_append, hlen]
  · rw [hg, List.drop_left, List.filter_append, hdata gpioSTB (by decide) (by decide)]
    simp [gpioSTB, gpioBLK, gpioA0, gpioA1, gpioA2]
  · rw [hg, List.drop_left, List.filter_append, hdata gpioBLK (by decide) (by decide)]
    simp [gpioSTB, gpioBLK, gpioA0, gpioA1, gpioA2]

/-! ## The end-to-end scenario -/

/-- The last of `n + 1` scan cycles is a cycle run after the first `n`. -/
theorem update_row_succ_last (n : Nat) :
    ∀ s : State, update_row (n + 1) s = update_row_cycle (update_row n s) := by
  induction n with
  | zero => intro s; rfl
  | succ n ih =>
    intro s
    show update_row (n + 1) (update_row_cycle s) = _
    rw [ih]
    rfl

theorem update_row_cycle_flag (s : State) : (update_row_cycle s).sUserBufReady = false := by
  simp only [update_row_cycle, take_pending_flag]

/-- With no frame pending, scan cycles leave `buf` alone and the flag clear. -/
theorem update_row_idle (n : Nat) :
    ∀ s : State, s.sUserBufReady = false →
      (update_row n s).buf = s.buf ∧ (update_row n s).sUserBufReady = false := by
  induction n with
  | zero => intro s h; exact ⟨rfl, h⟩
  | succ n ih =>
    intro s h
    obtain ⟨h1, h2⟩ := ih (update_row_cycle s) (update_row_cycle_flag s)
    refine ⟨?_, h2⟩
    show (update_row n (update_row_cycle s)).buf = s.buf
    rw [h1, update_row_cycle_buf, h]
    rfl

/-- The level of a pin is decided by the calls after a point as soon as one of
them is on that pin. -/
theorem pinLevel_append (pin : Nat) (pre ws : List (Nat × Nat))
    (h : ws.filter (fun w => w.1 == pin) ≠ []) :
    pinLevel pin (pre ++ ws) = pinLevel pin ws := by
  unfold pinLevel
  rw [List.filter_append, List.getLast?_append_of_ne_nil _ h]

set_option maxRecDepth 100000 in
/-- C8, as the code behaves: the scenario payload (row 3 is `"FF"` and
seventeen `"00"`, every other row all `"00"`) written into the initial state
is accepted and leaves the scenario frame pending.  In every later scan cycle
that outputs row 3 (the cycle number `n + 1` is any with `row = 3`), `buf` is
the scenario frame, the calls of the cycle are those for row 3 of that frame,
the first byte shifted out is `0xFF` (eight data bits 1), and when the latch
is about to be pulsed the row-select lines read A0 = 1, A1 = 1, A2 = 0. -/
theorem scenario_row3_first_byte_0xFF (n : Nat)
    (h : (update_row (n + 1) scenario_written).row = 3) :
    dev_write init scenario_payload = some (288, scenario_written) ∧
    (update_row (n + 1) scenario_written).buf = scenario_frame ∧
    (update_row (n + 1) scenario_written).gpio =
      (update_row n scenario_written).gpio ++ cycle_writes scenario_frame 3 ∧
    first_byte_shifted (cycle_writes scenario_frame 3) = 0xFF ∧
    (cycle_writes scenario_frame 3).take 24 =
      [(gpioD0, 1), (gpioCLK, 1), (gpioCLK, 0), (gpioD0, 1), (gpioCLK, 1), (gpioCLK, 0),
       (gpioD0, 1), (gpioCLK, 1), (gpioCLK, 0), (gpioD0, 1), (gpioCLK, 1), (gpioCLK, 0),
       (gpioD0, 1), (gpioCLK, 1), (gpioCLK, 0), (gpioD0, 1), (gpioCLK, 1), (gpioCLK, 0),
       (gpioD0, 1), (gpioCLK, 1), (gpioCLK, 0), (gpioD0, 1), (gpioCLK, 1), (gpioCLK, 0)] ∧
    pinLevel gpioA0
      ((update_row n scenario_written).gpio ++ before_latch (cycle_writes scenario_frame 3)) = 1 ∧
    pinLevel gpioA1
      ((update_row n scenario_written).gpio ++ before_latch (cycle_writes scenario_frame 3)) = 1 ∧
    pinLevel gpioA2
      ((update_row n scenario_written).gpio ++ before_latch (cycle_writes scenario_frame 3)) = 0 := by
  have hbuf : (update_row (n + 1) scenario_written).buf = scenario_frame := by
    show (update_row n (update_row_cycle scenario_written)).buf = _
    rw [(update_row_idle n _ (update_row_cycle_flag _)).1, update_row_cycle_buf]
    rfl
  have hgpio : (update_row (n + 1) scenario_written).gpio =
      (update_row n scenario_written).gpio ++ cycle_writes scenario_frame 3 := by
    rw [← hbuf, ← h, update_row_succ_last n scenario_written]
    exact update_row_cycle_gpio _
  refine ⟨by decide!, hbuf, hgpio, by decide!, by decide!, ?_, ?_, ?_⟩
  · rw [pinLevel_append _ _ _ (by decide!)]
    decide!
  · rw [pinLevel_append _ _ _ (by decide!)]
    decide!
  · rw [pinLevel_append _ _ _ (by decide!)]
    decide!

set_option maxRecDepth 100000 in
/-- Witness for C8: the third scan cycle after the write outputs row 3. -/
theorem scenario_row3_first_byte_0xFF_witness :
    (update_row (2 + 1) scenario_written).row = 3 ∧
    dev_write init scenario_payload = some (288, scenario_written) ∧
    (update_row (2 + 1) scenario_written).buf = scenario_frame ∧
    (update_row (2 + 1) scenario_written).gpio =
      (update_row 2 scenario_written).gpio ++ cycle_writes scenario_frame 3 ∧
    first_byte_shifted (cycle_writes scenario_frame 3) = 0xFF ∧
    (cycle_writes scenario_frame 3).take 24 =
      [(gpioD0, 1), (gpioCLK, 1), (gpioCLK, 0), (gpioD0, 1), (gpioCLK, 1), (gpioCLK, 0),
       (gpioD0, 1), (gpioCLK, 1), (gpioCLK, 0), (gpioD0, 1), (gpioCLK, 1), (gpioCLK, 0),
       (gpioD0, 1), (gpioCLK, 1), (gpioCLK, 0), (gpioD0, 1), (gpioCLK, 1), (gpioCLK, 0),
       (gpioD0, 1), (gpioCLK, 1), (gpioCLK, 0), (gpioD0, 1), (gpioCLK, 1), (gpioCLK, 0)] ∧
    pinLevel gpioA0
      ((update_row 2 scenario_written).gpio ++ before_latch (cycle_writes scenario_frame 3)) = 1 ∧
    pinLevel gpioA1
      ((update_row 2 scenario_written).gpio ++ before_latch (cycle_writes scenario_frame 3)) = 1 ∧
    pinLevel gpioA2
      ((update_row 2 scenario_written).gpio ++ before_latch (cycle_writes scenario_frame 3)) = 0 :=
  ⟨by decide!, scenario_row3_first_byte_0xFF 2 (by decide!)⟩

set_option maxRecDepth 100000 in
/-- Counterexample for C8 as stated: in the third scan cycle after the
scenario payload is written, which outputs row 3 with the row-select lines
reading binary 3, the first byte shifted out is not `0x01`. -/
theorem scenario_row3_first_byte_not_0x01 :
    dev_write init scenario_payload = some (288, scenario_written) ∧
    (update_row 3 scenario_written).row = 3 ∧
    (update_row 3 scenario_written).gpio =
      (update_row 2 scenario_written).gpio ++ cycle_writes scenario_frame 3 ∧
    ¬ (pinLevel gpioA0
        ((update_row 2 scenario_written).gpio ++
          before_latch (cycle_writes scenario_frame 3)) = 1 ∧
      pinLevel gpioA1
        ((update_row 2 scenario_written).gpio ++
          before_latch (cycle_writes scenario_frame 3)) = 1 ∧
      pinLevel gpioA2
        ((update_row 2 scenario_written).gpio ++
          before_latch (cycle_writes scenario_frame 3)) = 0 ∧
      first_byte_shifted (cycle_writes scenario_frame 3) = 0x01) := by
  refine ⟨by decide!, by decide!, by decide!, ?_⟩
  intro hc
  exact absurd hc.2.2.2 (by decide!)

/-! ## Lemmas on sequences of scan cycles -/

/-- The row index after `n` scan cycles. -/
theorem update_row_row (n : Nat) :
    ∀ s : State, s.row < 8 → (update_row n s).row = (s.row + n) % 8 := by
  induction n with
  | zero => intro s h; exact (Nat.mod_eq_of_lt h).symm
  | succ n ih =>
    intro s h
    have hr : (update_row_cycle s).row = (s.row + 1) % 8 := by
      rw [update_row_cycle_row, next_row_eq_mod h]
    have hlt : (update_row_cycle s).row < 8 := by rw [hr]; omega
    show (update_row n (update_row_cycle s)).row = _
    rw [ih _ hlt, hr]
    omega

/-- The GPIO calls of the last of `n + 1` scan cycles. -/
theorem update_row_last_gpio (n : Nat) (s : State) :
    (update_row (n + 1) s).gpio =
      (update_row n s).gpio ++
        cycle_writes (update_row (n + 1) s).buf (update_row (n + 1) s).row := by
  rw [update_row_succ_last]
  exact update_row_cycle_gpio _

/-- The calls of a scan cycle on a pin other than data and clock are among the
control calls. -/
theorem cycle_writes_filter (buf : List (List Nat)) (row pin : Nat)
    (h1 : pin ≠ gpioD0) (h2 : pin ≠ gpioCLK) :
    (cycle_writes buf row).filter (fun w => w.1 == pin) =
      (control_writes row).filter (fun w => w.1 == pin) := by
  have hdata : (write_row_data (buf.getD row []) NUM_ROW_BYTES).filter
      (fun w => w.1 == pin) = [] := by
    rw [List.filter_eq_nil_iff]
    intro w hw
    rcases write_row_data_pins _ _ w hw with h | h <;> rw [h] <;> simp [Ne.symm h1, Ne.symm h2]
  rw [cycle_writes, List.filter_append, hdata, List.nil_append]

/-- A scan cycle leaves the blank and the latch pins low. -/
theorem pinLevel_after_cycle (pre : List (Nat × Nat)) (buf : List (List Nat)) (row : Nat) :
    pinLevel gpioBLK (pre ++ cycle_writes buf row) = 0 ∧
    pinLevel gpioSTB (pre ++ cycle_writes buf row) = 0 := by
  have hb : (cycle_writes buf row).filter (fun w => w.1 == gpioBLK) =
      [(gpioBLK, 1), (gpioBLK, 0)] := by
    rw [cycle_writes_filter _ _ _ (by decide) (by decide)]
    simp [control_writes, row_select_writes, gpioSTB, gpioBLK, gpioA0, gpioA1, gpioA2]
  have hs : (cycle_writes buf row).filter (fun w => w.1 == gpioSTB) =
      [(gpioSTB, 1), (gpioSTB, 0)] := by
    rw [cycle_writes_filter _ _ _ (by decide) (by decide)]
    simp [control_writes, row_select_writes, gpioSTB, gpioBLK, gpioA0, gpioA1, gpioA2]
  constructor
  · rw [pinLevel_append _ _ _ (by rw [hb]; simp)]
    unfold pinLevel
    rw [hb]
    rfl
  · rw [pinLevel_append _ _ _ (by rw [hs]; simp)]
    unfold pinLevel
    rw [hs]
    rfl

/-- A call of `dev_write` that returns makes no GPIO call and leaves `buf`. -/
theorem dev_write_frame {s s1 : State} {buffer : List Nat} {ret : Int}
    (h : dev_write s buffer = some (ret, s1)) :
    s1.buf = s.buf ∧ s1.gpio = s.gpio ∧ (s.sUserBufReady = true → s1 = s) := by
  by_cases h1 : buffer.length < NUM_ROWS * NUM_ROW_BYTES * 2
  · simp only [dev_write, h1, if_true, Option.some.injEq, Prod.mk.injEq] at h
    rw [← h.2]
    exact ⟨rfl, rfl, fun _ => rfl⟩
  · by_cases h2 : s.sUserBufReady = true
    · simp [dev_write, h1, h2] at h
    · have h3 : s.sUserBufReady = false := by simpa using h2
      rw [dev_write_run s buffer (by simp only [NUM_ROWS, NUM_ROW_BYTES] at h1; omega) h3] at h
      simp only [Option.some.injEq, Prod.mk.injEq] at h
      rw [← h.2]
      exact ⟨rfl, rfl, fun h4 => absurd h4 h2⟩

theorem reachable_pins_low {s : State} (h : Reachable s) :
    pinLevel gpioBLK s.gpio = 0 ∧ pinLevel gpioSTB s.gpio = 0 := by
  induction h with
  | init => exact ⟨rfl, rfl⟩
  | cycle _ _ =>
    rw [update_row_cycle_gpio]
    exact pinLevel_after_cycle _ _ _
  | write _ hw ih =>
    rw [(dev_write_frame hw).2.1]
    exact ih

theorem reachable_update_row (n : Nat) : ∀ s : State, Reachable s → Reachable (update_row n s) := by
  induction n with
  | zero => intro s h; exact h
  | succ n ih => intro s h; exact ih _ (Reachable.cycle h)

/-! ## Claims on sequences of scan cycles -/

/-- C11: the blank line is never left asserted.  In every reachable state,
that is at every point where `update_row` tests the stop condition (before the
first cycle, and after each completed cycle and its dwell sleep), and
therefore when the loop exits after any number `n` of further cycles, zero
included, the level last put on BLK is 0 and the level last put on STB is 0;
before any `gpio_set_value` these are the levels given by
`gpio_direction_output(A, 0)` in `INIT_GPIO`, which a successful
`ledmsgchar_init` calls for both pins. -/
theorem blank_never_left_asserted (s : State) (h : Reachable s) (n : Nat) :
    pinLevel gpioBLK s.gpio = 0 ∧ pinLevel gpioSTB s.gpio = 0 ∧
    pinLevel gpioBLK (update_row n s).gpio = 0 ∧
    pinLevel gpioSTB (update_row n s).gpio = 0 ∧
    pinLevel gpioBLK (update_row n init).gpio = 0 ∧
    pinLevel gpioSTB (update_row n init).gpio = 0 ∧
    KCall.gpio_direction_output gpioBLK 0 ∈ (ledmsgchar_init kernel_ok).2 ∧
    KCall.gpio_direction_output gpioSTB 0 ∈ (ledmsgchar_init kernel_ok).2 := by
  have h1 := reachable_pins_low h
  have h2 := reachable_pins_low (reachable_update_row n s h)
  have h3 := reachable_pins_low (reachable_update_row n init Reachable.init)
  exact ⟨h1.1, h1.2, h2.1, h2.2, h3.1, h3.2, by decide, by decide⟩

/-- Witness for C11: the state after the first scan cycle, and five further
cycles. -/
theorem blank_never_left_asserted_witness :
    Reachable (update_row_cycle init) ∧
    pinLevel gpioBLK (update_row_cycle init).gpio = 0 ∧
    pinLevel gpioSTB (update_row_cycle init).gpio = 0 ∧
    pinLevel gpioBLK (update_row 5 (update_row_cycle init)).gpio = 0 ∧
    pinLevel gpioSTB (update_row 5 (update_row_cycle init)).gpio = 0 ∧
    pinLevel gpioBLK (update_row 5 init).gpio = 0 ∧
    pinLevel gpioSTB (update_row 5 init).gpio = 0 ∧
    KCall.gpio_direction_output gpioBLK 0 ∈ (ledmsgchar_init kernel_ok).2 ∧
    KCall.gpio_direction_output gpioSTB 0 ∈ (ledmsgchar_init kernel_ok).2 :=
  ⟨Reachable.cycle Reachable.init,
    blank_never_left_asserted (update_row_cycle init) (Reachable.cycle Reachable.init) 5⟩

/-- C12: `sUserBufReady` is 0 after every scan cycle; a scan cycle that
immediately follows another takes nothing, and so do any number of further
cycles with no `dev_write` between them: `buf` stays byte for byte what the
first cycle left; in general a cycle leaves `buf` unchanged when entered with
the flag clear (and sets it to `userBuf` otherwise). -/
theorem update_row_cycle_takes_once (s : State) (n : Nat) :
    (update_row_cycle s).sUserBufReady = false ∧
    (update_row_cycle (update_row_cycle s)).buf = (update_row_cycle s).buf ∧
    (update_row_cycle (update_row_cycle s)).sUserBufReady = false ∧
    (update_row n (update_row_cycle s)).buf = (update_row_cycle s).buf ∧
    (update_row n (update_row_cycle s)).sUserBufReady = false ∧
    (update_row_cycle s).buf = (if s.sUserBufReady then s.userBuf else s.buf) := by
  have hf := update_row_cycle_flag s
  have h1 := update_row_idle 1 (update_row_cycle s) hf
  have hn := update_row_idle n (update_row_cycle s) hf
  exact ⟨hf, h1.1, h1.2, hn.1, hn.2, update_row_cycle_buf s⟩

/-- C20: from the initial state (`row = 0`) the row index is advanced before
the row is output: after `n` cycles `row = n mod 8`, so the cycle number
`n + 1` outputs row `(n + 1) mod 8`; the first cycle outputs row 1, and the
first eight cycles output the rows 1, 2, 3, 4, 5, 6, 7, 0 in this order, row 0
being output for the first time in the eighth cycle. -/
theorem update_row_from_init (n : Nat) :
    init.row = 0 ∧
    (update_row n init).row = n % 8 ∧
    (update_row (n + 1) init).row = (n + 1) % 8 ∧
    (update_row (n + 1) init).gpio =
      (update_row n init).gpio ++
        (write_row_data ((update_row (n + 1) init).buf.getD ((n + 1) % 8) []) NUM_ROW_BYTES ++
          control_writes ((n + 1) % 8)) ∧
    (update_row 1 init).row = 1 ∧
    rows_scanned 8 init = [1, 2, 3, 4, 5, 6, 7, 0] := by
  have hrow : ∀ m, (update_row m init).row = m % 8 := by
    intro m
    rw [update_row_row m init (by decide)]
    show (0 + m) % 8 = m % 8
    rw [Nat.zero_add]
  refine ⟨rfl, hrow n, hrow (n + 1), ?_, hrow 1, ?_⟩
  · rw [update_row_last_gpio, hrow (n + 1)]
    rfl
  · rw [rows_scanned_eq 8 init (by decide)]
    decide

/-- C14: at startup, before any write, `buf` holds the diagonal test pattern:
for every row `r` in 0..7, `buf[r][0] = 2^r` and `buf[r][i] = 0` for
`1 <= i < 18`, so exactly one of the row's bits is set, namely bit `r` of byte
0; and scan cycles run with no write pending keep this `buf` and output its
rows: the cycle number `n + 1` outputs row `(n + 1) mod 8` of the pattern. -/
theorem init_diagonal_pattern (r : Nat) (hr : r < 8) (n : Nat) :
    init.buf = INIT_BUFFER_PATTERN ∧ FrameOK init.buf ∧ init.sUserBufReady = false ∧
    getByte init.buf r 0 = 2 ^ r ∧
    (∀ i, 1 ≤ i → i < 18 → getByte init.buf r i = 0) ∧
    row_bits_set (init.buf.getD r []) = 1 ∧
    bitOf (getByte init.buf r 0) r = 1 ∧
    (update_row n init).buf = INIT_BUFFER_PATTERN ∧
    (update_row (n + 1) init).gpio =
      (update_row n init).gpio ++
        (write_row_data (INIT_BUFFER_PATTERN.getD ((n + 1) % 8) []) NUM_ROW_BYTES ++
          control_writes ((n + 1) % 8)) := by
  have hbuf : ∀ m, (update_row m init).buf = INIT_BUFFER_PATTERN :=
    fun m => (update_row_idle m init rfl).1
  have hrow : (update_row (n + 1) init).row = (n + 1) % 8 := by
    rw [update_row_row (n + 1) init (by decide)]
    show (0 + (n + 1)) % 8 = _
    rw [Nat.zero_add]
  refine ⟨rfl, by decide, rfl, ?_, ?_, ?_, ?_, hbuf n, ?_⟩
  · interval_cases r <;> rfl
  · intro i h1 h2
    interval_cases r <;> interval_cases i <;> rfl
  · interval_cases r <;> rfl
  · interval_cases r <;> rfl
  · rw [update_row_last_gpio, hrow, hbuf]
    rfl

/-- Witness for C14: row 5 of the initial pattern and the fourth scan cycle. -/
theorem init_diagonal_pattern_witness :
    5 < 8 ∧
    init.buf = INIT_BUFFER_PATTERN ∧ FrameOK init.buf ∧ init.sUserBufReady = false ∧
    getByte init.buf 5 0 = 2 ^ 5 ∧
    (∀ i, 1 ≤ i → i < 18 → getByte init.buf 5 i = 0) ∧
    row_bits_set (init.buf.getD 5 []) = 1 ∧
    bitOf (getByte init.buf 5 0) 5 = 1 ∧
    (update_row 3 init).buf = INIT_BUFFER_PATTERN ∧
    (update_row (3 + 1) init).gpio =
      (update_row 3 init).gpio ++
        (write_row_data (INIT_BUFFER_PATTERN.getD ((3 + 1) % 8) []) NUM_ROW_BYTES ++
          control_writes ((3 + 1) % 8)) :=
  ⟨by decide, init_diagonal_pattern 5 (by decide) 3⟩

/-! ## Claims on the ownership of the shared variables -/

/-- C16: the ready flag changes direction only on its own side.  A call of
`dev_write` that returns (accepted or rejected) never changes `sUserBufReady`
from 1 to 0 and writes no byte of `buf`, not the row index and no GPIO pin; a
scan cycle never changes `sUserBufReady` from 0 to 1 (it always leaves it 0)
and writes no byte of `userBuf`. -/
theorem flag_sides (s s1 : State) (buffer : List Nat) (ret : Int)
    (h : dev_write s buffer = some (ret, s1)) :
    ¬ (s.sUserBufReady = true ∧ s1.sUserBufReady = false) ∧
    s1.buf = s.buf ∧ s1.row = s.row ∧ s1.gpio = s.gpio ∧
    ¬ (s.sUserBufReady = false ∧ (update_row_cycle s).sUserBufReady = true) ∧
    (update_row_cycle s).sUserBufReady = false ∧
    (update_row_cycle s).userBuf = s.userBuf ∧
    (update_row_cycle s1).userBuf = s1.userBuf := by
  obtain ⟨h1, h2, h3⟩ := dev_write_frame h
  have hu : ∀ t : State, (update_row_cycle t).userBuf = t.userBuf := by
    intro t
    simp only [update_row_cycle, take_pending_userBuf]
  refine ⟨?_, h1, dev_write_row_unchanged h, h2, ?_, update_row_cycle_flag s, hu s, hu s1⟩
  · intro hc
    have := h3 hc.1
    rw [this, hc.1] at hc
    exact absurd hc.2 (by simp)
  · intro hc
    rw [update_row_cycle_flag] at hc
    exact absurd hc.2 (by simp)

set_option maxRecDepth 100000 in
/-- Witness for C16: the scenario payload written into the initial state. -/
theorem flag_sides_witness :
    dev_write init scenario_payload = some (288, scenario_written) ∧
    ¬ (init.sUserBufReady = true ∧ scenario_written.sUserBufReady = false) ∧
    scenario_written.buf = init.buf ∧ scenario_written.row = init.row ∧
    scenario_written.gpio = init.gpio ∧
    ¬ (init.sUserBufReady = false ∧ (update_row_cycle init).sUserBufReady = true) ∧
    (update_row_cycle init).sUserBufReady = false ∧
    (update_row_cycle init).userBuf = init.userBuf ∧
    (update_row_cycle scenario_written).userBuf = scenario_written.userBuf :=
  ⟨by decide!, flag_sides init scenario_written scenario_payload 288 (by decide!)⟩

/-! ## Claims on permissive decoding and the return value -/

theorem hexIndex_eq (c : Nat) : hexIndex c = (c &&& 0x1F) ^^^ 0x10 := by
  unfold hexIndex
  have h1 : c &&& 0x1F < 2 ^ 5 := Nat.and_lt_two_pow c (by decide)
  have h2 : (c &&& 0x1F) ^^^ 0x10 < 2 ^ 5 := Nat.xor_lt_two_pow h1 (by decide)
  exact Nat.mod_eq_of_lt (by omega)

theorem hexIndex_lt (c : Nat) : hexIndex c < 32 := by
  rw [hexIndex_eq]
  have h1 : c &&& 0x1F < 2 ^ 5 := Nat.and_lt_two_pow c (by decide)
  exact Nat.xor_lt_two_pow h1 (by decide)

theorem hexNibble_lt_16 (c : Nat) : hexNibble c < 16 := by
  unfold hexNibble
  have h := hexIndex_lt c
  generalize hexIndex c = j at h
  interval_cases j <;> decide

theorem hexIndex_mod (c : Nat) : hexIndex (c % 32) = hexIndex c := by
  rw [hexIndex_eq, hexIndex_eq]
  have e : ∀ x : Nat, x &&& 0x1F = x % 32 := fun x => Nat.and_pow_two_sub_one_eq_mod x 5
  rw [e, e, Nat.mod_mod]

/-- The pointer of the decoding loops ends 288 characters after the start,
whatever the buffer and the frame. -/
theorem dev_write_decode_fst (buffer : List Nat) (userBuf : List (List Nat)) :
    (dev_write_decode buffer userBuf).1 = 288 := by
  have inner : ∀ (row n : Nat) (p : Nat × List (List Nat)),
      ((List.range n).foldl (dev_write_byte buffer row) p).1 = p.1 + 2 * n := by
    intro row n
    induction n with
    | zero => intro p; rfl
    | succ n ih =>
      intro p
      rw [List.range_succ, List.foldl_append, List.foldl_cons, List.foldl_nil]
      simp only [dev_write_byte]
      rw [ih]
      omega
  have outer : ∀ (m : Nat) (p : Nat × List (List Nat)),
      ((List.range m).foldl (dev_write_row buffer) p).1 = p.1 + 36 * m := by
    intro m
    induction m with
    | zero => intro p; rfl
    | succ m ih =>
      intro p
      rw [List.range_succ, List.foldl_append, List.foldl_cons, List.foldl_nil]
      have := inner m NUM_ROW_BYTES ((List.range m).foldl (dev_write_row buffer) p)
      rw [ih] at this
      show ((List.range NUM_ROW_BYTES).foldl (dev_write_byte buffer m) _).1 = _
      rw [this]
      simp only [NUM_ROW_BYTES]
      omega
  have := outer NUM_ROWS (0, userBuf)
  unfold dev_write_decode
  rw [this]
  rfl

/-- C18: hex decoding is permissive and never rejects.  For every pair of
characters `ascii2byte` returns `16 * T[(c1 & 0x1F) ^ 0x10] + T[(c2 & 0x1F) ^ 0x10]`
for the table `T = hexLookup`, so the result depends only on the low five bits
of each character; `dev_write` called with the slot empty accepts every buffer
of length at least 288 whatever its content, and in no state does a call with
such a buffer return anything but `len` (never an error); and the character
`'Q'`, which is not a hex digit, decodes to the non-zero nibble 1. -/
theorem ascii2byte_permissive (c1 c2 : Nat) (s : State) (buffer : List Nat)
    (hlen : 288 ≤ buffer.length) (hempty : s.sUserBufReady = false) :
    ascii2byte c1 c2 =
      16 * hexLookup.getD ((c1 &&& 0x1F) ^^^ 0x10) 0 + hexLookup.getD ((c2 &&& 0x1F) ^^^ 0x10) 0 ∧
    ascii2byte c1 c2 = ascii2byte (c1 % 32) (c2 % 32) ∧
    (∃ s1, dev_write s buffer = some ((buffer.length : Int), s1)) ∧
    (∀ (t : State) (ret : Int) (t1 : State),
      dev_write t buffer = some (ret, t1) → ret = (buffer.length : Int)) ∧
    ¬ isHexDigit 81 ∧ hexNibble 81 = 1 ∧ ascii2byte 81 81 = 0x11 := by
  have key : ∀ a b : Nat, ascii2byte a b = 16 * hexNibble a + hexNibble b :=
    fun a b => nibbles_combine (hexNibble_lt_16 a) (hexNibble_lt_16 b)
  have hrun := dev_write_run s buffer hlen hempty
  refine ⟨?_, ?_, ⟨_, hrun⟩, ?_, by decide, by decide, by decide⟩
  · rw [key, hexNibble, hexNibble, hexIndex_eq, hexIndex_eq]
  · rw [key, key, hexNibble, hexNibble, hexNibble, hexNibble, hexIndex_mod, hexIndex_mod]
  · intro t ret t1 h
    by_cases ht : t.sUserBufReady = true
    · have hb : ¬ buffer.length < NUM_ROWS * NUM_ROW_BYTES * 2 := by
        simp only [NUM_ROWS, NUM_ROW_BYTES]; omega
      simp [dev_write, hb, ht] at h
    · have ht2 : t.sUserBufReady = false := by simpa using ht
      rw [dev_write_run t buffer hlen ht2] at h
      simp only [Option.some.injEq, Prod.mk.injEq] at h
      exact h.1.symm

set_option maxRecDepth 100000 in
/-- Witness for C18: the pair `'Q'`, `'z'` and a buffer of 288 characters `'Q'`. -/
theorem ascii2byte_permissive_witness :
    (288 ≤ (List.replicate 288 81).length ∧ init.sUserBufReady = false) ∧
    ascii2byte 81 122 =
      16 * hexLookup.getD ((81 &&& 0x1F) ^^^ 0x10) 0 +
        hexLookup.getD ((122 &&& 0x1F) ^^^ 0x10) 0 ∧
    ascii2byte 81 122 = ascii2byte (81 % 32) (122 % 32) ∧
    (∃ s1, dev_write init (List.replicate 288 81) =
      some (((List.replicate 288 81).length : Int), s1)) ∧
    (∀ (t : State) (ret : Int) (t1 : State),
      dev_write t (List.replicate 288 81) = some (ret, t1) →
        ret = ((List.replicate 288 81).length : Int)) ∧
    ¬ isHexDigit 81 ∧ hexNibble 81 = 1 ∧ ascii2byte 81 81 = 0x11 :=
  ⟨⟨by decide!, rfl⟩,
    ascii2byte_permissive 81 122 init (List.replicate 288 81) (by decide!) rfl⟩

/-- C13, as the code behaves: for every call with `len >= 288` and the slot
empty, `dev_write` returns `len`, the number of characters passed by the
caller, and deposits the frame that the decoding loops produce: the state
returned has `userBuf` equal to the result of the loops, `sUserBufReady = 1`
and the other variables unchanged.  The loops read exactly the first 288
characters (the pointer `pchar` ends at `buffer + 288`; byte `i` of row `r` is
`ascii2byte` of the characters at `2*(18*r+i)` and `2*(18*r+i)+1`, and any
buffer with the same first 288 characters deposits the same frame), so the
value returned equals the number of characters decoded exactly when
`len = 288`. -/
theorem dev_write_returns_len (s : State) (buffer : List Nat)
    (hlen : 288 ≤ buffer.length) (hempty : s.sUserBufReady = false) :
    ∃ s1, dev_write s buffer = some ((buffer.length : Int), s1) ∧
      (∀ ret t, dev_write s buffer = some (ret, t) → ret = (buffer.length : Int) ∧ t = s1) ∧
      s1.userBuf = (dev_write_decode buffer s.userBuf).2 ∧
      s1.sUserBufReady = true ∧
      s1.buf = s.buf ∧ s1.row = s.row ∧ s1.gpio = s.gpio ∧
      (dev_write_decode buffer s.userBuf).1 = 288 ∧
      ((buffer.length : Int) = (((dev_write_decode buffer s.userBuf).1 : Nat) : Int) ↔
        buffer.length = 288) ∧
      (FrameOK s.userBuf →
        FrameOK s1.userBuf ∧
        (∀ r i, r < 8 → i < 18 →
          getByte s1.userBuf r i =
            ascii2byte (charAt buffer (2 * (18 * r + i))) (charAt buffer (2 * (18 * r + i) + 1))) ∧
        (∀ buffer2 : List Nat, 288 ≤ buffer2.length → buffer2.take 288 = buffer.take 288 →
          ∃ s2, dev_write s buffer2 = some ((buffer2.length : Int), s2) ∧
            s2.userBuf = s1.userBuf)) := by
  have hrun := dev_write_run s buffer hlen hempty
  refine ⟨{ s with userBuf := (dev_write_decode buffer s.userBuf).2, sUserBufReady := true },
    hrun, ?_, ?_, rfl, rfl, rfl, rfl, dev_write_decode_fst _ _, ?_, ?_⟩
  · intro ret t h
    rw [hrun] at h
    simp only [Option.some.injEq, Prod.mk.injEq] at h
    exact ⟨h.1.symm, h.2.symm⟩
  · dsimp only
  · rw [dev_write_decode_fst]
    constructor
    · intro e
      exact_mod_cast e
    · intro e
      rw [e]
  · intro hdim
    obtain ⟨_, d2, d3⟩ := dev_write_decode_spec buffer s.userBuf hdim
    refine ⟨?_, ?_, ?_⟩
    · dsimp only
      exact d2
    · intro r i hr hi
      dsimp only
      rw [d3 r i hr hi]
      rfl
    · intro buffer2 hlen2 htake
      refine ⟨{ s with userBuf := (dev_write_decode buffer2 s.userBuf).2, sUserBufReady := true },
        dev_write_run s buffer2 hlen2 hempty, ?_⟩
      obtain ⟨_, e2, e3⟩ := dev_write_decode_spec buffer2 s.userBuf hdim
      dsimp only
      apply frame_ext e2 d2
      intro r i hr hi
      rw [e3 r i hr hi, d3 r i hr hi]
      unfold ascii2byteAt
      rw [charAt_of_take_eq htake (show 2 * (18 * r + i) < 288 by omega),
        charAt_of_take_eq htake (show 2 * (18 * r + i) + 1 < 288 by omega)]

set_option maxRecDepth 100000 in
/-- Witness for C13: the 288 characters of `fill_row(3, str)` written into the
initial state. -/
theorem dev_write_returns_len_witness :
    (288 ≤ (fill_row 3).length ∧ init.sUserBufReady = false) ∧
    ∃ s1, dev_write init (fill_row 3) = some (((fill_row 3).length : Int), s1) ∧
      (∀ ret t, dev_write init (fill_row 3) = some (ret, t) → ret = ((fill_row 3).length : Int) ∧ t = s1) ∧
      s1.userBuf = (dev_write_decode (fill_row 3) init.userBuf).2 ∧
      s1.sUserBufReady = true ∧
      s1.buf = init.buf ∧ s1.row = init.row ∧ s1.gpio = init.gpio ∧
      (dev_write_decode (fill_row 3) init.userBuf).1 = 288 ∧
      (((fill_row 3).length : Int) = (((dev_write_decode (fill_row 3) init.userBuf).1 : Nat) : Int) ↔
        (fill_row 3).length = 288) ∧
      (FrameOK init.userBuf →
        FrameOK s1.userBuf ∧
        (∀ r i, r < 8 → i < 18 →
          getByte s1.userBuf r i =
            ascii2byte (charAt (fill_row 3) (2 * (18 * r + i))) (charAt (fill_row 3) (2 * (18 * r + i) + 1))) ∧
        (∀ buffer2 : List Nat, 288 ≤ buffer2.length → buffer2.take 288 = (fill_row 3).take 288 →
          ∃ s2, dev_write init buffer2 = some ((buffer2.length : Int), s2) ∧
            s2.userBuf = s1.userBuf)) :=
  ⟨⟨by decide!, rfl⟩, dev_write_returns_len init (fill_row 3) (by decide!) rfl⟩

set_option maxRecDepth 100000 in
/-- Counterexample for C13 as stated: for the 289-character buffer made of the
text of `fill_row(3, str)` and one more `'0'`, written with the slot empty,
`dev_write` returns 289 although the decoding loops read 288 characters. -/
theorem dev_write_returns_more_than_decoded :
    (fill_row 3 ++ [48]).length = 289 ∧ init.sUserBufReady = false ∧
    (dev_write init (fill_row 3 ++ [48])).map (fun r => r.1) = some 289 ∧
    (dev_write_decode (fill_row 3 ++ [48]) init.userBuf).1 = 288 ∧
    (dev_write init (fill_row 3 ++ [48])).map (fun r => r.1) ≠
      some (((dev_write_decode (fill_row 3 ++ [48]) init.userBuf).1 : Nat) : Int) := by
  refine ⟨by decide!, rfl, by decide!, by decide!, by decide!⟩

/-! ## Module load and unload -/

/-- C15, the code at the failing input: with the line A1 made invalid (every
other call succeeding), `ledmsgchar_init` returns `-ENODEV` (-19), does not
call `kthread_run`, calls `gpio_free` on no line, and returns with the line A0
still held.  In general, with the `j`-th of the seven lines made invalid, the
`j` lines requested before it are all still held on return; only for `j = 0`
is no line held. -/
theorem ledmsgchar_init_invalid_line_held :
    (ledmsgchar_init (kernel_invalid gpioA1)).1 = -ENODEV ∧
    (ledmsgchar_init (kernel_invalid gpioA1)).1 = -19 ∧
    KCall.kthread_run ∉ (ledmsgchar_init (kernel_invalid gpioA1)).2 ∧
    (ledmsgchar_init (kernel_invalid gpioA1)).2 =
      [KCall.register_chrdev, KCall.class_create, KCall.device_create,
       KCall.gpio_request gpioA0, KCall.gpio_direction_output gpioA0 0,
       KCall.gpio_export gpioA0,
       KCall.class_destroy, KCall.unregister_chrdev] ∧
    lines_held (ledmsgchar_init (kernel_invalid gpioA1)).2 [] = [gpioA0] ∧
    (∀ j, j < 7 →
      (ledmsgchar_init (kernel_invalid (gpio_lines.getD j 0))).1 = -ENODEV ∧
      KCall.kthread_run ∉ (ledmsgchar_init (kernel_invalid (gpio_lines.getD j 0))).2 ∧
      lines_held (ledmsgchar_init (kernel_invalid (gpio_lines.getD j 0))).2 [] =
        gpio_lines.take j) := by
  refine ⟨by decide, by decide, by decide, by decide, by decide, ?_⟩
  intro j hj
  interval_cases j <;> exact ⟨by decide, by decide, by decide⟩

/-- C19, the code as it runs: after a `ledmsgchar_init` in which every call
succeeds, all seven lines are held; `ledmsgchar_exit` then unexports each of
the seven lines once but calls `gpio_free(gpioBLK)` seven times and
`gpio_free` on no other line, so that six of its `gpio_free` calls are on a
line that is not held and the lines A0, A1, A2, CLK, D0 and STB are still held
after exit. -/
theorem ledmsgchar_exit_frees_only_BLK :
    (ledmsgchar_init kernel_ok).1 = 0 ∧
    lines_held (ledmsgchar_init kernel_ok).2 [] = gpio_lines ∧
    (∀ A ∈ gpio_lines, ledmsgchar_exit.count (KCall.gpio_unexport A) = 1) ∧
    ledmsgchar_exit.count (KCall.gpio_free gpioBLK) = 7 ∧
    (∀ A ∈ gpio_lines, A ≠ gpioBLK → ledmsgchar_exit.count (KCall.gpio_free A) = 0) ∧
    lines_held ((ledmsgchar_init kernel_ok).2 ++ ledmsgchar_exit) [] =
      [gpioA0, gpioA1, gpioA2, gpioCLK, gpioD0, gpioSTB] ∧
    frees_not_held ((ledmsgchar_init kernel_ok).2 ++ ledmsgchar_exit) [] =
      [gpioBLK, gpioBLK, gpioBLK, gpioBLK, gpioBLK, gpioBLK] := by
  refine ⟨by decide, by decide, by decide, by decide, by decide, by decide, by decide⟩

/-! ## The interleaved executions -/

set_option maxRecDepth 100000 in
/-- The steps of the interleaved model, run one execution after the other,
do what the functions `dev_write` and `update_row_cycle` do: on the scenario
payload the call, the poll, the 144 stores and the flag store leave the state
that `dev_write` returns, and the 147 steps of the following scan cycle leave
the state of `update_row_cycle`. -/
theorem run_agrees_on_scenario :
    (run (Action.call scenario_payload :: List.replicate 146 Action.writer) config_init).shared =
      scenario_written ∧
    (run (Action.call scenario_payload :: List.replicate 146 Action.writer ++
        List.replicate 147 Action.scanner) config_init).shared =
      update_row_cycle scenario_written ∧
    (run (List.replicate 2 Action.scanner) config_init).shared = update_row_cycle init := by
  refine ⟨by decide!, by decide!, by decide!⟩

/-! ### Lemmas on decoded frames -/

theorem decode_frame_ok (buffer : List Nat) : FrameOK (decode_frame buffer) := by
  refine ⟨by simp [decode_frame], ?_⟩
  intro rowData hmem
  simp only [decode_frame, List.mem_map] at hmem
  obtain ⟨r, _, rfl⟩ := hmem
  simp

theorem getByte_decode_frame (buffer : List Nat) {r i : Nat} (hr : r < 8) (hi : i < 18) :
    getByte (decode_frame buffer) r i = ascii2byteAt buffer (2 * (18 * r + i)) := by
  have hr2 : r < NUM_ROWS := hr
  have hi2 : i < NUM_ROW_BYTES := hi
  simp [getByte, decode_frame, List.getD_eq_getElem?_getD, List.getElem?_map,
    List.getElem?_range, hr2, hi2, hi, NUM_ROW_BYTES]

/-- The nested loops of `dev_write` leave the decoded frame in `userBuf`. -/
theorem dev_write_decode_eq (buffer : List Nat) (userBuf : List (List Nat))
    (hu : FrameOK userBuf) : (dev_write_decode buffer userBuf).2 = decode_frame buffer := by
  obtain ⟨_, d2, d3⟩ := dev_write_decode_spec buffer userBuf hu
  apply frame_ext d2 (decode_frame_ok buffer)
  intro r i hr hi
  rw [d3 r i hr hi, getByte_decode_frame buffer hr hi]

/-- Storing the byte decoded at a position extends the decoded part of
`userBuf` by that position. -/
theorem store_extends (buffer : List Nat) (u : List (List Nat)) (hu : FrameOK u)
    {row index : Nat} (hrow : row < 8) (hindex : index < 18)
    (hpre : ∀ r i, r < 8 → i < 18 → (r < row ∨ (r = row ∧ i < index)) →
      getByte u r i = ascii2byteAt buffer (2 * (18 * r + i))) :
    ∀ r i, r < 8 → i < 18 → (r < row ∨ (r = row ∧ i ≤ index)) →
      getByte (setByte u row index (ascii2byteAt buffer (2 * (18 * row + index)))) r i =
        ascii2byteAt buffer (2 * (18 * r + i)) := by
  intro r i hr hi hc
  rw [getByte_setByte _ _ _ _ _ _ (by rw [hu.1]; exact hrow)
    (by rw [FrameOK_row_length hu hrow]; exact hindex)]
  by_cases h : r = row ∧ i = index
  · rw [if_pos h, h.1, h.2]
  · rw [if_neg h]
    apply hpre r i hr hi
    omega

/-! ### The invariant holds initially and is kept by every step -/

theorem inv_init : Inv config_init where
  buf_ok := by decide
  userBuf_ok := by decide
  writer_inv := trivial
  scan_inv := trivial
  pending := fun h => absurd h (by decide)
  whole := fun _ => Or.inl rfl
  in_order := rfl
  count := rfl

theorem inv_writer_call (c : Config) (buffer : List Nat) (h : Inv c) :
    Inv (writer_call c buffer) := by
  obtain ⟨sh, w, sc, acc, cp⟩ := c
  cases w with
  | idle =>
    simp only [writer_call]
    split
    · exact h
    · exact ⟨h.buf_ok, h.userBuf_ok, trivial, h.scan_inv, h.pending, h.whole, h.in_order, h.count⟩
  | poll b => exact h
  | store b row index pchar => exact h
  | set_ready b => exact h

/-- While the flag is clear the scan loop is neither copying nor about to
clear the flag. -/
theorem scan_inv_of_clear {c : Config} (h : ScanInv c) (hf : c.shared.sUserBufReady = false) :
    c.scanner = ScanPc.top ∨ c.scanner = ScanPc.output := by
  obtain ⟨sh, w, sc, acc, cp⟩ := c
  cases sc with
  | top => exact Or.inl rfl
  | output => exact Or.inr rfl
  | copy k =>
    have := h.1
    simp only at this hf
    rw [hf] at this
    exact absurd this (by decide)
  | clear =>
    have := h.1
    simp only at this hf
    rw [hf] at this
    exact absurd this (by decide)

theorem inv_writer_step (c : Config) (h : Inv c) : Inv (writer_step c) := by
  obtain ⟨sh, w, sc, acc, cp⟩ := c
  cases w with
  | idle => exact h
  | poll b =>
    simp only [writer_step]
    split
    · exact h
    · rename_i hf
      have hf : sh.sUserBufReady = false := by simpa using hf
      refine ⟨h.buf_ok, h.userBuf_ok, ?_, h.scan_inv, h.pending, h.whole, h.in_order, h.count⟩
      exact ⟨hf, by decide, by decide, rfl, fun r i _ _ hc => by omega⟩
  | store b row index pchar =>
    obtain ⟨hf, hrow, hindex, hp, hpre⟩ := h.writer_inv
    simp only at hf hrow hindex hp hpre
    subst hp
    have hsc := scan_inv_of_clear h.scan_inv hf
    simp only at hsc
    have hext := store_extends b sh.userBuf h.userBuf_ok hrow hindex hpre
    have hok : FrameOK (setByte sh.userBuf row index (ascii2byteAt b (2 * (18 * row + index)))) :=
      FrameOK_setByte _ _ _ _ h.userBuf_ok
    have hscan : ∀ u : List (List Nat),
        ScanInv ⟨{ sh with userBuf := u }, WriterPc.idle, sc, acc, cp⟩ := by
      intro u
      rcases hsc with e | e <;> subst e <;> trivial
    have hpend : ∀ u : List (List Nat), ({ sh with userBuf := u } : State).sUserBufReady = true →
        ∃ b, acc.getLast? = some b ∧ ({ sh with userBuf := u } : State).userBuf = decode_frame b := by
      intro u hc
      simp only at hc
      rw [hf] at hc
      exact absurd hc (by decide)
    have hcount : acc.length = cp.length +
        (if sh.sUserBufReady = true ∧ sc ≠ ScanPc.clear then 1 else 0) := h.count
    simp only [writer_step, dev_write_byte]
    split
    · rename_i h1
      refine ⟨h.buf_ok, hok, ?_, hscan _, hpend _, h.whole, h.in_order, hcount⟩
      refine ⟨hf, hrow, h1, by omega, ?_⟩
      intro r i hr hi hc
      exact hext r i hr hi (by omega)
    · rename_i h1
      split
      · rename_i h2
        refine ⟨h.buf_ok, hok, ?_, hscan _, hpend _, h.whole, h.in_order, hcount⟩
        refine ⟨hf, h2, by decide, by simp only [NUM_ROW_BYTES] at h1; omega, ?_⟩
        intro r i hr hi hc
        exact hext r i hr hi (by simp only [NUM_ROW_BYTES] at h1; omega)
      · rename_i h2
        refine ⟨h.buf_ok, hok, ?_, hscan _, hpend _, h.whole, h.in_order, hcount⟩
        refine ⟨hf, ?_⟩
        apply frame_ext hok (decode_frame_ok b)
        intro r i hr hi
        rw [getByte_decode_frame b hr hi]
        exact hext r i hr hi (by simp only [NUM_ROW_BYTES, NUM_ROWS] at h1 h2; omega)
  | set_ready b =>
    obtain ⟨hf, hu⟩ := h.writer_inv
    simp only at hf hu
    have hsc := scan_inv_of_clear h.scan_inv hf
    simp only at hsc
    have hcount : acc.length = cp.length +
        (if sh.sUserBufReady = true ∧ sc ≠ ScanPc.clear then 1 else 0) := h.count
    have hlen : acc.length = cp.length := by
      rw [hcount, hf]
      simp
    have hord : cp = (acc.take cp.length).map decode_frame := h.in_order
    simp only [writer_step]
    refine ⟨h.buf_ok, h.userBuf_ok, trivial, ?_, ?_, ?_, ?_, ?_⟩
    · rcases hsc with e | e <;> subst e <;> trivial
    · intro _
      exact ⟨b, by simp, hu⟩
    · intro hk
      rcases h.whole hk with e | ⟨b1, hb1, e⟩
      · exact Or.inl e
      · exact Or.inr ⟨b1, List.mem_append_left _ hb1, e⟩
    · show cp = ((acc ++ [b]).take cp.length).map decode_frame
      rw [List.take_append_of_le_length (by omega)]
      exact hord
    · show (acc ++ [b]).length = cp.length + (if true = true ∧ sc ≠ ScanPc.clear then 1 else 0)
      have : sc ≠ ScanPc.clear := by
        rcases hsc with e | e <;> subst e <;> decide
      simp [this, hlen]

/-- While the flag is set the producer is not storing into `userBuf` and is
not about to set the flag. -/
theorem writer_inv_of_set {c : Config} (h : WriterInv c) (hf : c.shared.sUserBufReady = true) :
    c.writer = WriterPc.idle ∨ ∃ b, c.writer = WriterPc.poll b := by
  obtain ⟨sh, w, sc, acc, cp⟩ := c
  cases w with
  | idle => exact Or.inl rfl
  | poll b => exact Or.inr ⟨b, rfl⟩
  | store b row index pchar =>
    have := h.1
    simp only at this hf
    rw [hf] at this
    exact absurd this (by decide)
  | set_ready b =>
    have := h.1
    simp only at this hf
    rw [hf] at this
    exact absurd this (by decide)

/-- The writer's part of the invariant does not look at `buf`, `row`, the GPIO
calls or the position of the scan loop. -/
theorem writer_inv_congr {c d : Config} (h : WriterInv c) (hw : d.writer = c.writer)
    (hu : d.shared.userBuf = c.shared.userBuf)
    (hf : d.shared.sUserBufReady = c.shared.sUserBufReady) : WriterInv d := by
  obtain ⟨sh, w, sc, acc, cp⟩ := c
  obtain ⟨sh2, w2, sc2, acc2, cp2⟩ := d
  simp only at hw hu hf
  subst hw
  cases w2 with
  | idle => trivial
  | poll b => trivial
  | store b row index pchar =>
    obtain ⟨h1, h2, h3, h4, h5⟩ := h
    simp only at h1 h5
    exact ⟨by simp only; rw [hf, h1], h2, h3, h4, by simp only; rw [hu]; exact h5⟩
  | set_ready b =>
    obtain ⟨h1, h2⟩ := h
    simp only at h1 h2
    exact ⟨by simp only; rw [hf, h1], by simp only; rw [hu, h2]⟩

theorem inv_scanner_step (c : Config) (h : Inv c) : Inv (scanner_step c) := by
  obtain ⟨sh, w, sc, acc, cp⟩ := c
  have hcount : acc.length = cp.length +
      (if sh.sUserBufReady = true ∧ sc ≠ ScanPc.clear then 1 else 0) := h.count
  have hord : cp = (acc.take cp.length).map decode_frame := h.in_order
  cases sc with
  | top =>
    simp only [scanner_step]
    split
    · rename_i hf
      refine ⟨h.buf_ok, h.userBuf_ok, writer_inv_congr h.writer_inv rfl rfl rfl, ?_, h.pending,
        ?_, hord, ?_⟩
      · exact ⟨hf, by decide, fun j hj => by omega⟩
      · intro hk
        exact absurd rfl (hk 0)
      · show acc.length = cp.length + (if sh.sUserBufReady = true ∧ ScanPc.copy 0 ≠ ScanPc.clear
          then 1 else 0)
        rw [hcount]
        simp
    · refine ⟨h.buf_ok, h.userBuf_ok, writer_inv_congr h.writer_inv rfl rfl rfl, trivial,
        h.pending, ?_, hord, ?_⟩
      · intro _
        exact h.whole (by intro k; simp)
      · show acc.length = cp.length + (if sh.sUserBufReady = true ∧ ScanPc.output ≠ ScanPc.clear
          then 1 else 0)
        rw [hcount]
        simp
  | output =>
    simp only [scanner_step]
    refine ⟨h.buf_ok, h.userBuf_ok, writer_inv_congr h.writer_inv rfl rfl rfl, trivial,
      h.pending, ?_, hord, ?_⟩
    · intro _
      exact h.whole (by intro k; simp)
    · show acc.length = cp.length + (if sh.sUserBufReady = true ∧ ScanPc.top ≠ ScanPc.clear
        then 1 else 0)
      rw [hcount]
      simp
  | clear =>
    obtain ⟨hf, hb⟩ := h.scan_inv
    simp only at hf hb
    have hlen : acc.length = cp.length := by
      rw [hcount]
      simp
    simp only [scanner_step]
    refine ⟨h.buf_ok, h.userBuf_ok, ?_, trivial, ?_, ?_, hord, ?_⟩
    · rcases writer_inv_of_set h.writer_inv hf with e | ⟨b, e⟩
      · simp only at e
        subst e
        trivial
      · simp only at e
        subst e
        trivial
    · intro hc
      exact absurd hc (by simp)
    · intro _
      exact h.whole (by intro k; simp)
    · show acc.length = cp.length + (if false = true ∧ ScanPc.output ≠ ScanPc.clear then 1 else 0)
      rw [hlen]
      simp
  | copy k =>
    obtain ⟨hf, hk, hpre⟩ := h.scan_inv
    simp only at hf hk hpre
    have hlen : acc.length = cp.length + 1 := by
      rw [hcount]
      simp [hf]
    have hrow : k / 18 < 8 := by omega
    have hidx : k % 18 < 18 := by omega
    have hok : FrameOK (setByte sh.buf (k / 18) (k % 18) (getByte sh.userBuf (k / 18) (k % 18))) :=
      FrameOK_setByte _ _ _ _ h.buf_ok
    have hext : ∀ j, j ≤ k →
        getByte (setByte sh.buf (k / 18) (k % 18) (getByte sh.userBuf (k / 18) (k % 18)))
          (j / 18) (j % 18) = getByte sh.userBuf (j / 18) (j % 18) := by
      intro j hj
      rw [getByte_setByte _ _ _ _ _ _ (by rw [h.buf_ok.1]; exact hrow)
        (by rw [FrameOK_row_length h.buf_ok hrow]; exact hidx)]
      by_cases e : j / 18 = k / 18 ∧ j % 18 = k % 18
      · rw [if_pos e, e.1, e.2]
      · rw [if_neg e]
        exact hpre j (by omega)
    simp only [scanner_step, NUM_ROWS, NUM_ROW_BYTES]
    split
    · rename_i h1
      refine ⟨hok, h.userBuf_ok, writer_inv_congr h.writer_inv rfl rfl rfl, ?_, h.pending, ?_,
        hord, ?_⟩
      · exact ⟨hf, by omega, fun j hj => hext j (by omega)⟩
      · intro hc
        exact absurd rfl (hc (k + 1))
      · show acc.length = cp.length + (if sh.sUserBufReady = true ∧
          ScanPc.copy (k + 1) ≠ ScanPc.clear then 1 else 0)
        rw [hlen]
        simp [hf]
    · rename_i h1
      obtain ⟨b, hlast, hub⟩ := h.pending hf
      simp only at hlast hub
      have hbuf : setByte sh.buf (k / 18) (k % 18) (getByte sh.userBuf (k / 18) (k % 18)) =
          sh.userBuf := by
        apply frame_ext hok h.userBuf_ok
        intro r i hr hi
        have := hext (18 * r + i) (by omega)
        have e1 : (18 * r + i) / 18 = r := by omega
        have e2 : (18 * r + i) % 18 = i := by omega
        rw [e1, e2] at this
        exact this
      have hacc : acc.dropLast ++ [b] = acc := List.dropLast_append_getLast? b hlast
      have hdl : acc.dropLast.length = cp.length := by
        rw [List.length_dropLast, hlen]
        rfl
      have hcp : cp = acc.dropLast.map decode_frame := by
        rw [← hacc, List.take_append_of_le_length (by omega), ← hdl, List.take_length] at hord
        exact hord
      refine ⟨hok, h.userBuf_ok, writer_inv_congr h.writer_inv rfl rfl rfl, ?_, h.pending, ?_,
        ?_, ?_⟩
      · exact ⟨hf, hbuf⟩
      · intro _
        refine Or.inr ⟨b, ?_, ?_⟩
        · exact List.mem_of_mem_getLast? hlast
        · show setByte sh.buf (k / 18) (k % 18) (getByte sh.userBuf (k / 18) (k % 18)) = _
          rw [hbuf, hub]
      · show cp ++ [setByte sh.buf (k / 18) (k % 18) (getByte sh.userBuf (k / 18) (k % 18))] =
          (acc.take (cp ++ [setByte sh.buf (k / 18) (k % 18)
            (getByte sh.userBuf (k / 18) (k % 18))]).length).map decode_frame
        rw [hbuf, hub, List.length_append, List.length_singleton, ← hlen, List.take_length]
        conv_rhs => rw [← hacc]
        rw [List.map_append, ← hcp]
        rfl
      · show acc.length = (cp ++ [setByte sh.buf (k / 18) (k % 18)
          (getByte sh.userBuf (k / 18) (k % 18))]).length +
          (if sh.sUserBufReady = true ∧ ScanPc.clear ≠ ScanPc.clear then 1 else 0)
        rw [List.length_append, List.length_singleton, hlen]
        simp

/-- Every step keeps the invariant, so every schedule does. -/
theorem inv_run (schedule : List Action) : ∀ c : Config, Inv c → Inv (run schedule c) := by
  induction schedule with
  | nil => intro c h; exact h
  | cons a rest ih =>
    intro c h
    apply ih
    cases a with
    | call buffer => exact inv_writer_call c buffer h
    | writer => exact inv_writer_step c h
    | scanner => exact inv_scanner_step c h

theorem len_inv_step (c : Config) (a : Action) (h : LenInv c) : LenInv (step c a) := by
  obtain ⟨sh, w, sc, acc, cp⟩ := c
  obtain ⟨h1, h2⟩ := h
  simp only at h1 h2
  cases a with
  | call buffer =>
    cases w with
    | idle =>
      simp only [step, writer_call]
      split
      · exact ⟨h1, h2⟩
      · rename_i hl
        exact ⟨h1, by simp only [NUM_ROWS, NUM_ROW_BYTES] at hl; omega⟩
    | poll b => exact ⟨h1, h2⟩
    | store b row index pchar => exact ⟨h1, h2⟩
    | set_ready b => exact ⟨h1, h2⟩
  | writer =>
    cases w with
    | idle => exact ⟨h1, h2⟩
    | poll b =>
      simp only [step, writer_step]
      split
      · exact ⟨h1, h2⟩
      · exact ⟨h1, h2⟩
    | store b row index pchar =>
      simp only [step, writer_step]
      split
      · exact ⟨h1, h2⟩
      · split
        · exact ⟨h1, h2⟩
        · exact ⟨h1, h2⟩
    | set_ready b =>
      simp only [step, writer_step]
      refine ⟨?_, trivial⟩
      intro b1 hb1
      rcases List.mem_append.mp hb1 with e | e
      · exact h1 b1 e
      · rw [List.mem_singleton.mp e]
        exact h2
  | scanner =>
    cases sc with
    | top =>
      simp only [step, scanner_step]
      split
      · exact ⟨h1, h2⟩
      · exact ⟨h1, h2⟩
    | output => exact ⟨h1, h2⟩
    | clear => exact ⟨h1, h2⟩
    | copy k =>
      simp only [step, scanner_step]
      split
      · exact ⟨h1, h2⟩
      · exact ⟨h1, h2⟩

theorem len_inv_run (schedule : List Action) :
    ∀ c : Config, LenInv c → LenInv (run schedule c) := by
  induction schedule with
  | nil => intro c h; exact h
  | cons a rest ih => intro c h; exact ih _ (len_inv_step c a h)

/-! ### Progress of the scan loop -/

theorem run_scanner_succ (n : Nat) (c : Config) :
    run (List.replicate (n + 1) Action.scanner) c =
      run (List.replicate n Action.scanner) (scanner_step c) := by
  rw [List.replicate_succ]
  rfl

/-- From inside the `memcpy`, the scan loop running alone completes the copy
in `144 - k` steps: it then stands at `clear` with one more entry in `copied`
and the same `accepted`. -/
theorem scanner_finishes_copy (m : Nat) :
    ∀ (c : Config) (k : Nat), c.scanner = ScanPc.copy k → k + m = 144 → 0 < m →
      (run (List.replicate m Action.scanner) c).scanner = ScanPc.clear ∧
      (run (List.replicate m Action.scanner) c).copied.length = c.copied.length + 1 ∧
      (run (List.replicate m Action.scanner) c).accepted = c.accepted := by
  induction m with
  | zero => intro c k _ _ h; omega
  | succ m ih =>
    intro c k hc hk _
    obtain ⟨sh, w, sc, acc, cp⟩ := c
    simp only at hc
    subst hc
    rw [run_scanner_succ]
    by_cases hm : m = 0
    · subst hm
      have hk2 : ¬ k + 1 < NUM_ROWS * NUM_ROW_BYTES := by
        simp only [NUM_ROWS, NUM_ROW_BYTES]; omega
      simp [scanner_step, hk2, run]
    · have hk2 : k + 1 < NUM_ROWS * NUM_ROW_BYTES := by
        simp only [NUM_ROWS, NUM_ROW_BYTES]; omega
      simp only [scanner_step, hk2, if_true]
      refine ih _ (k + 1) ?_ ?_ ?_
      · rfl
      · omega
      · omega

/-- With a frame pending, the scan loop running alone has copied it after at
most 146 steps. -/
theorem scanner_takes_pending (c : Config) (h : Inv c)
    (hf : c.shared.sUserBufReady = true) :
    ∃ n, n ≤ 146 ∧
      (run (List.replicate n Action.scanner) c).copied.length = c.accepted.length ∧
      (run (List.replicate n Action.scanner) c).accepted = c.accepted := by
  obtain ⟨sh, w, sc, acc, cp⟩ := c
  have hcount : acc.length = cp.length +
      (if sh.sUserBufReady = true ∧ sc ≠ ScanPc.clear then 1 else 0) := h.count
  simp only at hf
  cases sc with
  | clear =>
    have hlen : acc.length = cp.length := by simpa using hcount
    exact ⟨0, by omega, hlen.symm, rfl⟩
  | copy k =>
    obtain ⟨_, hk, _⟩ := h.scan_inv
    have hk : k < 144 := hk
    have hlen : acc.length = cp.length + 1 := by rw [hcount]; simp [hf]
    obtain ⟨_, h2, h3⟩ := scanner_finishes_copy (144 - k) ⟨sh, w, ScanPc.copy k, acc, cp⟩ k rfl
      (by omega) (by omega)
    exact ⟨144 - k, by omega, by rw [h2, hlen], h3⟩
  | top =>
    have hlen : acc.length = cp.length + 1 := by rw [hcount]; simp [hf]
    have hstep : scanner_step ⟨sh, w, ScanPc.top, acc, cp⟩ =
        ⟨sh, w, ScanPc.copy 0, acc, cp⟩ := by
      simp [scanner_step, hf]
    obtain ⟨_, h2, h3⟩ := scanner_finishes_copy 144 ⟨sh, w, ScanPc.copy 0, acc, cp⟩ 0 rfl
      (by omega) (by omega)
    refine ⟨144 + 1, by omega, ?_, ?_⟩
    · rw [run_scanner_succ, hstep, h2, hlen]
    · rw [run_scanner_succ, hstep, h3]
  | output =>
    have hlen : acc.length = cp.length + 1 := by rw [hcount]; simp [hf]
    obtain ⟨sh2, hstep⟩ : ∃ sh2 : State,
        scanner_step (scanner_step ⟨sh, w, ScanPc.output, acc, cp⟩) =
          ⟨sh2, w, ScanPc.copy 0, acc, cp⟩ := by
      exact ⟨{ sh with row := next_row sh.row
                       gpio := sh.gpio ++ cycle_writes sh.buf (next_row sh.row) },
        by simp [scanner_step, hf]⟩
    obtain ⟨_, h2, h3⟩ := scanner_finishes_copy 144 ⟨sh2, w, ScanPc.copy 0, acc, cp⟩ 0 rfl
      (by omega) (by omega)
    refine ⟨144 + 1 + 1, by omega, ?_, ?_⟩
    · rw [run_scanner_succ, run_scanner_succ, hstep, h2, hlen]
    · rw [run_scanner_succ, run_scanner_succ, hstep, h3]

theorem len_inv_init : LenInv config_init :=
  ⟨fun b hb => absurd hb (List.not_mem_nil b), trivial⟩

/-- With the flag set a step of the producer changes nothing. -/
theorem writer_step_of_set (c : Config) (h : WriterInv c)
    (hf : c.shared.sUserBufReady = true) : writer_step c = c := by
  obtain ⟨sh, w, sc, acc, cp⟩ := c
  rcases writer_inv_of_set h hf with e | ⟨b, e⟩
  · simp only at e
    subst e
    rfl
  · simp only at e hf
    subst e
    simp [writer_step, hf]

/-! ### The hand-off -/

/-- C17: exactly-once, no-tear hand-off, in the interleaving model where every
load or store of `sUserBufReady`, every byte stored into `userBuf` and every
byte copied by `memcpy` is one atomic step.  For every schedule of the scan
loop and a single producer, in the configuration `c` reached:

* the producer is at a store into `userBuf` only while `sUserBufReady` is
  clear, and while the flag is set a step of the producer changes nothing (a
  second deposit waits);
* the frames copied into `buf` are, in order and once each, the decodings of
  the accepted buffers, all of them except possibly the newest, which is
  still pending; with the flag clear every accepted frame has been copied,
  and with a frame pending the scan loop copies it within 146 of its steps;
* outside the `memcpy`, in particular whenever a row is serialised, `buf` is
  the initial pattern or the complete decoding of one accepted buffer;
* every accepted buffer has at least 288 characters and its decoding is the
  frame that `dev_write` deposits. -/
theorem handoff_exactly_once_no_tear (schedule : List Action) (c : Config)
    (hc : c = run schedule config_init) :
    (∀ b row index pchar, c.writer = WriterPc.store b row index pchar →
      c.shared.sUserBufReady = false) ∧
    (c.shared.sUserBufReady = true → writer_step c = c) ∧
    c.copied = (c.accepted.take c.copied.length).map decode_frame ∧
    c.copied.length ≤ c.accepted.length ∧
    c.accepted.length ≤ c.copied.length + 1 ∧
    (c.shared.sUserBufReady = false → c.copied = c.accepted.map decode_frame) ∧
    (∃ n, n ≤ 146 ∧
      (run (List.replicate n Action.scanner) c).copied = c.accepted.map decode_frame ∧
      (run (List.replicate n Action.scanner) c).accepted = c.accepted) ∧
    ((∀ k, c.scanner ≠ ScanPc.copy k) →
      c.shared.buf = INIT_BUFFER_PATTERN ∨ ∃ b ∈ c.accepted, c.shared.buf = decode_frame b) ∧
    (∀ b ∈ c.accepted, 288 ≤ b.length ∧
      ∀ s : State, s.sUserBufReady = false → FrameOK s.userBuf →
        dev_write s b = some ((b.length : Int),
          { s with userBuf := decode_frame b, sUserBufReady := true })) := by
  have hI : Inv c := by rw [hc]; exact inv_run schedule config_init inv_init
  have hL : LenInv c := by rw [hc]; exact len_inv_run schedule config_init len_inv_init
  clear hc
  have hcount := hI.count
  have hord := hI.in_order
  have hdone : c.accepted.length = c.copied.length → c.copied = c.accepted.map decode_frame := by
    intro e
    rw [← e, List.take_length] at hord
    exact hord
  refine ⟨?_, ?_, hord, ?_, ?_, ?_, ?_, hI.whole, ?_⟩
  · intro b row index pchar hw
    have := hI.writer_inv
    unfold WriterInv at this
    rw [hw] at this
    exact this.1
  · exact writer_step_of_set c hI.writer_inv
  · rw [hcount]
    omega
  · rw [hcount]
    split <;> omega
  · intro hf
    apply hdone
    rw [hcount, hf]
    simp
  · by_cases hf : c.shared.sUserBufReady = true
    · obtain ⟨n, hn, h1, h2⟩ := scanner_takes_pending c hI hf
      refine ⟨n, hn, ?_, h2⟩
      have hI2 : Inv (run (List.replicate n Action.scanner) c) := inv_run _ c hI
      have := hI2.in_order
      rw [h1, h2, List.take_length] at this
      exact this
    · refine ⟨0, by omega, ?_, rfl⟩
      apply hdone
      rw [hcount]
      simp [hf]
  · intro b hb
    have hlen := hL.1 b hb
    refine ⟨hlen, ?_⟩
    intro s hs hu
    rw [dev_write_run s b hlen hs, dev_write_decode_eq b s.userBuf hu]

/-- Witness for C17: the producer writes the scenario payload and the scan loop
is then interrupted in the middle of the `memcpy`. -/
theorem handoff_exactly_once_no_tear_witness :
    run scenario_schedule config_init = run scenario_schedule config_init ∧
    (∀ b row index pchar, (run scenario_schedule config_init).writer = WriterPc.store b row index pchar →
      (run scenario_schedule config_init).shared.sUserBufReady = false) ∧
    ((run scenario_schedule config_init).shared.sUserBufReady = true → writer_step (run scenario_schedule config_init) = (run scenario_schedule config_init)) ∧
    (run scenario_schedule config_init).copied = ((run scenario_schedule config_init).accepted.take (run scenario_schedule config_init).copied.length).map decode_frame ∧
    (run scenario_schedule config_init).copied.length ≤ (run scenario_schedule config_init).accepted.length ∧
    (run scenario_schedule config_init).accepted.length ≤ (run scenario_schedule config_init).copied.length + 1 ∧
    ((run scenario_schedule config_init).shared.sUserBufReady = false → (run scenario_schedule config_init).copied = (run scenario_schedule config_init).accepted.map decode_frame) ∧
    (∃ n, n ≤ 146 ∧
      (run (List.replicate n Action.scanner) (run scenario_schedule config_init)).copied = (run scenario_schedule config_init).accepted.map decode_frame ∧
      (run (List.replicate n Action.scanner) (run scenario_schedule config_init)).accepted = (run scenario_schedule config_init).accepted) ∧
    ((∀ k, (run scenario_schedule config_init).scanner ≠ ScanPc.copy k) →
      (run scenario_schedule config_init).shared.buf = INIT_BUFFER_PATTERN ∨ ∃ b ∈ (run scenario_schedule config_init).accepted, (run scenario_schedule config_init).shared.buf = decode_frame b) ∧
    (∀ b ∈ (run scenario_schedule config_init).accepted, 288 ≤ b.length ∧
      ∀ s : State, s.sUserBufReady = false → FrameOK s.userBuf →
        dev_write s b = some ((b.length : Int),
          { s with userBuf := decode_frame b, sUserBufReady := true })) :=
  ⟨rfl, handoff_exactly_once_no_tear scenario_schedule (run scenario_schedule config_init) rfl⟩

set_option maxRecDepth 100000 in
/-- The configuration of the witness for C17: the producer is back outside
`dev_write`, the flag is set, the scan loop has copied 99 bytes, one buffer is
accepted and none copied yet. -/
theorem scenario_schedule_config :
    (run scenario_schedule config_init).writer = WriterPc.idle ∧
    (run scenario_schedule config_init).scanner = ScanPc.copy 99 ∧
    (run scenario_schedule config_init).shared.sUserBufReady = true ∧
    (run scenario_schedule config_init).shared.userBuf = scenario_frame ∧
    (run scenario_schedule config_init).accepted = [scenario_payload] ∧
    (run scenario_schedule config_init).copied = [] ∧
    decode_frame scenario_payload = scenario_frame := by
  refine ⟨by decide!, by decide!, by decide!, by decide!, by decide!, by decide!, by decide!⟩

/-! ## Safety of the table lookup -/

/-- Shifting a nibble left by four and or-ing in a nibble stays within a byte. -/
theorem nibbles_no_truncation {hi lo : Nat} (h1 : hi < 16) (h2 : lo < 16) :
    (hi <<< 4) % 256 = hi <<< 4 ∧ ((hi <<< 4) ||| lo) % 256 = (hi <<< 4) ||| lo ∧
    (hi <<< 4) ||| lo = 16 * hi + lo := by
  interval_cases hi <;> interval_cases lo <;> decide

/-- C21: the table lookup in `ascii2byte` is total.  For every character value
`c` (non-hex characters and values with the high bit set included) the index
`(c & 0x1F) ^ 0x10`, which the cast to `u8` leaves unchanged, lies in `0..31`,
inside the 32-entry table `hexLookup`, so the read `hexLookup[index]` is in
bounds and yields a nibble in `0..15`; hence for every pair of characters the
byte returned is exactly `(hi << 4) | lo`, below 256, with nothing lost to the
`u8` type of `result`. -/
theorem ascii2byte_lookup_total (c1 c2 : Nat) :
    hexLookup.length = 32 ∧
    hexIndex c1 = (c1 &&& 0x1F) ^^^ 0x10 ∧
    hexIndex c1 < hexLookup.length ∧ hexIndex c2 < hexLookup.length ∧
    hexLookup[hexIndex c1]? = some (hexNibble c1) ∧
    hexLookup[hexIndex c2]? = some (hexNibble c2) ∧
    hexNibble c1 ≤ 15 ∧ hexNibble c2 ≤ 15 ∧
    (hexNibble c1 <<< 4) % 256 = hexNibble c1 <<< 4 ∧
    ascii2byte c1 c2 = (hexNibble c1 <<< 4) ||| hexNibble c2 ∧
    ascii2byte c1 c2 = 16 * hexNibble c1 + hexNibble c2 ∧
    ascii2byte c1 c2 < 256 := by
  have i1 : hexIndex c1 < hexLookup.length := hexIndex_lt c1
  have i2 : hexIndex c2 < hexLookup.length := hexIndex_lt c2
  have n1 := hexNibble_lt_16 c1
  have n2 := hexNibble_lt_16 c2
  obtain ⟨t1, t2, t3⟩ := nibbles_no_truncation n1 n2
  have inb : ∀ c, hexIndex c < hexLookup.length → hexLookup[hexIndex c]? = some (hexNibble c) := by
    intro c hc
    rw [List.getElem?_eq_getElem hc]
    simp [hexNibble, List.getD_eq_getElem?_getD, List.getElem?_eq_getElem hc]
  have hval : ascii2byte c1 c2 = (hexNibble c1 <<< 4) ||| hexNibble c2 := by
    unfold ascii2byte
    simp only
    rw [t1, t2]
  refine ⟨rfl, hexIndex_eq c1, i1, i2, inb c1 i1, inb c2 i2, by omega, by omega, t1, hval, ?_, ?_⟩
  · rw [hval, t3]
  · rw [hval, t3]
    omega

end Ledmsgchar
